import Mathlib

/-!
Shallow embedding of the `mai-ir` boolean search engine (index builder,
query engine, shared analyzer) and proofs about it.

Strings are modelled as `List Char`; C++ `int` values as `Int`; `size_t`
counts as `Nat`.  Floating-point `double` arithmetic in the ranking
formula is modelled over `ℚ` with the transcendental functions
(`std::log`, `std::sqrt`) abstracted as function parameters, so every
statement about the score holds for all interpretations of them.
-/

namespace SE

/-- The apostrophe character (ASCII 39). -/
def apos : Char := Char.ofNat 39

/-- Null character used as the out-of-range default, mirroring the value
`std::string::operator[]` yields at the end position. -/
def nulc : Char := Char.ofNat 0

/-- `std::tolower` on an ASCII byte (C locale): source `Tokenizer::to_lower`
and `SearchEngine::to_lower_ascii` apply this per character; `Char.toLower`
is the same map on the ASCII range. -/
def lowerCh (c : Char) : Char := c.toLower

/-- `std::isalpha` in the C locale: ASCII letters only. -/
def isAlphaCh (c : Char) : Bool := c.isAlpha

/-- `std::isalnum` in the C locale: ASCII letters and digits. -/
def isAlnumCh (c : Char) : Bool := c.isAlphanum

/-- The stop-word array of `Tokenizer::init_stop_words`, in source order. -/
def stopWords : List (List Char) :=
  ["a", "an", "and", "are", "as", "at", "be", "by", "for", "from",
   "has", "he", "in", "is", "it", "its", "of", "on", "that", "the",
   "to", "was", "were", "will", "with", "this", "but", "they", "have",
   "had", "what", "when", "where", "who", "which", "why", "how", "all",
   "each", "every", "both", "few", "more", "most", "other", "some", "such",
   "no", "nor", "not", "only", "own", "same", "so", "than", "too", "very",
   "can", "just", "should", "now",
   "you", "your", "we", "our", "us", "or", "if", "do", "did", "does",
   "about", "up", "out", "would", "could", "may", "might", "been",
   "also", "into", "over", "after", "before", "through", "between",
   "her", "him", "his", "she", "them", "their", "my", "me",
   "any", "there", "then", "these", "those", "am", "been", "being",
   "here", "while", "during", "under", "again", "once"].map String.toList

/-- `Tokenizer::is_stop_word`: linear membership test. -/
def is_stop_word (w : List Char) : Bool := stopWords.contains w

/-- Emission step of `Tokenizer::tokenize`: lower-case the accumulated
surface token, keep it iff its length is at least 2 and it is not a stop
word.  (The source guards this with `!current_token.empty()`; an empty
accumulator yields the same empty emission.) -/
def flushTok (cur : List Char) : List (List Char) :=
  let low := cur.map lowerCh
  if 2 ≤ low.length ∧ ¬ is_stop_word low then [low] else []

/-- Main loop of `Tokenizer::tokenize`: a token is a maximal run of ASCII
letters, allowing apostrophes when the current run is nonempty. -/
def tokenizeAux : List Char → List Char → List (List Char)
  | [], cur => flushTok cur
  | c :: rest, cur =>
    if isAlphaCh c ∨ (c = apos ∧ cur ≠ []) then tokenizeAux rest (cur ++ [c])
    else flushTok cur ++ tokenizeAux rest []

/-- `Tokenizer::tokenize`. -/
def tokenize (text : List Char) : List (List Char) := tokenizeAux text []

/-! ## Porter stemmer (`PorterStemmer`, stemmer.cpp)

The C++ class mutates a buffer `word_` and two indices `k_` (last valid
index) and `j_` (suffix start helper); we thread an explicit state. -/

structure StemSt where
  word : List Char
  k : Int
  j : Int
deriving Repr

/-- Read `word_[i]` with the C++ `int` index. -/
def wget (w : List Char) (i : Int) : Char :=
  if i < 0 then nulc else w.getD i.toNat nulc

/-- `PorterStemmer::is_consonant` at a nonnegative index. -/
def consAt (w : List Char) : Nat → Bool
  | 0 =>
    let ch := w.getD 0 nulc
    if ch = 'a' ∨ ch = 'e' ∨ ch = 'i' ∨ ch = 'o' ∨ ch = 'u' then false else true
  | i + 1 =>
    let ch := w.getD (i + 1) nulc
    if ch = 'a' ∨ ch = 'e' ∨ ch = 'i' ∨ ch = 'o' ∨ ch = 'u' then false
    else if ch = 'y' then !consAt w i
    else true

/-- `is_consonant` with an `int` index (never called negative by the source). -/
def consAtI (w : List Char) (i : Int) : Bool :=
  if i < 0 then false else consAt w i.toNat

/-- Consonant flags of `word_[0..j_]`, the sequence `PorterStemmer::measure`
scans. -/
def consFlags (st : StemSt) : List Bool :=
  (List.range (st.j + 1).toNat).map (consAt st.word)

/-- The loop of `PorterStemmer::measure`, as a three-mode scanner:
mode 0 skips the initial consonant run, mode 1 skips vowels until a
consonant (counting it), mode 2 skips the consonant run. -/
def msrGo : List Bool → Nat → Nat
  | [], _ => 0
  | b :: r, 0 => if b then msrGo r 0 else msrGo r 1
  | b :: r, 1 => if b then 1 + msrGo r 2 else msrGo r 1
  | b :: r, _ => if b then msrGo r 2 else msrGo r 1

/-- `PorterStemmer::measure`: the number of vowel-consonant group
transitions in `word_[0..j_]`. -/
def msr (st : StemSt) : Nat := msrGo (consFlags st) 0

/-- `PorterStemmer::vowel_in_stem`. -/
def vowelInStem (st : StemSt) : Bool :=
  (List.range (st.j + 1).toNat).any (fun i => !consAt st.word i)

/-- `PorterStemmer::double_consonant`. -/
def doubleCons (st : StemSt) (i : Int) : Bool :=
  if i < 1 then false
  else if wget st.word i ≠ wget st.word (i - 1) then false
  else consAtI st.word i

/-- `PorterStemmer::cvc`. -/
def cvc (st : StemSt) (i : Int) : Bool :=
  if i < 2 ∨ ¬ consAtI st.word i ∨ consAtI st.word (i - 1) ∨ ¬ consAtI st.word (i - 2) then
    false
  else
    let ch := wget st.word i
    if ch = 'w' ∨ ch = 'x' ∨ ch = 'y' then false else true

/-- `substr(pos, len)` on the buffer (indices from `int` arithmetic). -/
def substrI (w : List Char) (pos len : Int) : List Char :=
  (w.drop pos.toNat).take len.toNat

/-- `PorterStemmer::ends`: sets `j_` only on success. -/
def ends (st : StemSt) (s : List Char) : Bool × StemSt :=
  let len : Int := s.length
  if wget s (len - 1) ≠ wget st.word st.k then (false, st)
  else if len > st.k + 1 then (false, st)
  else if substrI st.word (st.k - len + 1) len ≠ s then (false, st)
  else (true, { st with j := st.k - len })

/-- `PorterStemmer::set_to`: `word_.replace(j_ + 1, k_ - j_, s); k_ = j_ + |s|`. -/
def setTo (st : StemSt) (s : List Char) : StemSt :=
  { word := st.word.take (st.j + 1).toNat ++ s ++ st.word.drop (st.k + 1).toNat
    k := st.j + s.length
    j := st.j }

/-- `PorterStemmer::r`, fused with the preceding `ends` test of the source:
on suffix match, replace when the measure is positive. -/
def tryR (st : StemSt) (sfx repl : List Char) : Bool × StemSt :=
  let p := ends st sfx
  if p.1 then (true, if msr p.2 > 0 then setTo p.2 repl else p.2) else (false, p.2)

/-- A `switch`-case body of `PorterStemmer::step2`/`step3`: try the
(suffix, replacement) rules in order, stopping at the first suffix
match. -/
def tryRs (st : StemSt) : List (List Char × List Char) → StemSt
  | [] => st
  | pr :: rest =>
    let p := tryR st pr.1 pr.2
    if p.1 then p.2 else tryRs p.2 rest

/-- First half of `PorterStemmer::step1ab`: the `s`-suffix block
(`sses`/`ies`/trailing `s`). -/
def sBranchDef (st : StemSt) : StemSt :=
  if wget st.word st.k = 's' then
    let ps := ends st ("sses".toList)
    if ps.1 then { ps.2 with k := ps.2.k - 2 }
    else
      let pi := ends ps.2 ("ies".toList)
      if pi.1 then setTo pi.2 ("i".toList)
      else if wget pi.2.word (pi.2.k - 1) ≠ 's' then { pi.2 with k := pi.2.k - 1 }
      else pi.2
  else st

/-- The innermost block of `PorterStemmer::step1ab`: after `k_ = j_`, the
`at`/`bl`/`iz`/double-consonant/`cvc` rules. -/
def step1abInner (st2 : StemSt) : StemSt :=
  let pa := ends st2 ("at".toList)
  if pa.1 then setTo pa.2 ("ate".toList)
  else
    let pb := ends pa.2 ("bl".toList)
    if pb.1 then setTo pb.2 ("ble".toList)
    else
      let pz := ends pb.2 ("iz".toList)
      if pz.1 then setTo pz.2 ("ize".toList)
      else if doubleCons pz.2 pz.2.k then
        let k1 := pz.2.k - 1
        let ch := wget pz.2.word k1
        if ch = 'l' ∨ ch = 's' ∨ ch = 'z' then pz.2 else { pz.2 with k := k1 }
      else if msr pz.2 = 1 ∧ cvc pz.2 pz.2.k then setTo pz.2 ("e".toList)
      else pz.2

/-- Second half of `PorterStemmer::step1ab`: the `eed`/`ed`/`ing` block. -/
def step1abTail (st1 : StemSt) : StemSt :=
  let pe := ends st1 ("eed".toList)
  if pe.1 then
    if msr pe.2 > 0 then { pe.2 with k := pe.2.k - 1 } else pe.2
  else
    let pd := ends pe.2 ("ed".toList)
    let pg := if pd.1 then (true, pd.2) else ends pd.2 ("ing".toList)
    if (pd.1 ∨ pg.1) ∧ vowelInStem pg.2 then step1abInner { pg.2 with k := pg.2.j }
    else pg.2

/-- `PorterStemmer::step1ab`: the two sequential blocks of the source
function. -/
def step1ab (st : StemSt) : StemSt := step1abTail (sBranchDef st)

/-- `PorterStemmer::step1c`. -/
def step1c (st : StemSt) : StemSt :=
  let p := ends st ("y".toList)
  if p.1 ∧ vowelInStem p.2 then { p.2 with word := p.2.word.set p.2.k.toNat 'i' }
  else p.2

/-- `PorterStemmer::step2` (switch on `word_[k_ - 1]`; each case is an
in-order rule chain). -/
def step2 (st : StemSt) : StemSt :=
  if st.k = 0 then st
  else
    let c := wget st.word (st.k - 1)
    if c = 'a' then
      tryRs st [(("ational".toList), ("ate".toList)), (("tional".toList), ("tion".toList))]
    else if c = 'c' then
      tryRs st [(("enci".toList), ("ence".toList)), (("anci".toList), ("ance".toList))]
    else if c = 'e' then
      tryRs st [(("izer".toList), ("ize".toList))]
    else if c = 'l' then
      tryRs st [(("bli".toList), ("ble".toList)), (("alli".toList), ("al".toList)),
        (("entli".toList), ("ent".toList)), (("eli".toList), ("e".toList)),
        (("ousli".toList), ("ous".toList))]
    else if c = 'o' then
      tryRs st [(("ization".toList), ("ize".toList)), (("ation".toList), ("ate".toList)),
        (("ator".toList), ("ate".toList))]
    else if c = 's' then
      tryRs st [(("alism".toList), ("al".toList)), (("iveness".toList), ("ive".toList)),
        (("fulness".toList), ("ful".toList)), (("ousness".toList), ("ous".toList))]
    else if c = 't' then
      tryRs st [(("aliti".toList), ("al".toList)), (("iviti".toList), ("ive".toList)),
        (("biliti".toList), ("ble".toList))]
    else if c = 'g' then
      tryRs st [(("logi".toList), ("log".toList))]
    else st

/-- `PorterStemmer::step3` (switch on `word_[k_]`). -/
def step3 (st : StemSt) : StemSt :=
  let c := wget st.word st.k
  if c = 'e' then
    tryRs st [(("icate".toList), ("ic".toList)), (("ative".toList), ([])),
      (("alize".toList), ("al".toList))]
  else if c = 'i' then
    tryRs st [(("iciti".toList), ("ic".toList))]
  else if c = 'l' then
    tryRs st [(("ical".toList), ("ic".toList)), (("ful".toList), ([]))]
  else if c = 's' then
    tryRs st [(("ness".toList), ([]))]
  else st

/-- A `switch`-case body of `PorterStemmer::step4`: try the suffixes in
order, `true` meaning one matched (reaching the trailing measure test),
`false` the early `return`. -/
def endsSeq (st : StemSt) : List (List Char) → Bool × StemSt
  | [] => (false, st)
  | s :: rest =>
    let p := ends st s
    if p.1 then (true, p.2) else endsSeq p.2 rest

/-- The `'o'` case of the `step4` switch: `ion` with an `s`/`t` before it,
else `ou`. -/
def step4o (st : StemSt) : Bool × StemSt :=
  let p := ends st ("ion".toList)
  if p.1 ∧ 0 ≤ p.2.j ∧ (wget p.2.word p.2.j = 's' ∨ wget p.2.word p.2.j = 't') then
    (true, p.2)
  else ends p.2 ("ou".toList)

/-- The switch of `PorterStemmer::step4`, on the scrutinee `word_[k_ - 1]`;
`true` means a suffix matched (reaching the trailing measure test),
`false` means the early `return`. -/
def step4switch (c : Char) (st : StemSt) : Bool × StemSt :=
  if c = 'a' then endsSeq st [("al".toList)]
  else if c = 'c' then endsSeq st [("ance".toList), ("ence".toList)]
  else if c = 'e' then endsSeq st [("er".toList)]
  else if c = 'i' then endsSeq st [("ic".toList)]
  else if c = 'l' then endsSeq st [("able".toList), ("ible".toList)]
  else if c = 'n' then
    endsSeq st [("ant".toList), ("ement".toList), ("ment".toList), ("ent".toList)]
  else if c = 'o' then step4o st
  else if c = 's' then endsSeq st [("ism".toList)]
  else if c = 't' then endsSeq st [("ate".toList), ("iti".toList)]
  else if c = 'u' then endsSeq st [("ous".toList)]
  else if c = 'v' then endsSeq st [("ive".toList)]
  else if c = 'z' then endsSeq st [("ize".toList)]
  else (false, st)

/-- The body of `PorterStemmer::step4` up to the trailing measure test. -/
def step4core (st : StemSt) : Bool × StemSt :=
  step4switch (wget st.word (st.k - 1)) st

/-- `PorterStemmer::step4`. -/
def step4 (st : StemSt) : StemSt :=
  let p := step4core st
  if p.1 then (if msr p.2 > 1 then { p.2 with k := p.2.j } else p.2) else p.2

/-- `PorterStemmer::step5`. -/
def step5 (st : StemSt) : StemSt :=
  let st := { st with j := st.k }
  let st :=
    if wget st.word st.k = 'e' then
      let a := msr st
      if a > 1 ∨ (a = 1 ∧ ¬ cvc st (st.k - 1)) then { st with k := st.k - 1 } else st
    else st
  if wget st.word st.k = 'l' ∧ doubleCons st st.k ∧ msr st > 1 then
    { st with k := st.k - 1 }
  else st

/-- `PorterStemmer::stem`.  The member `j_` is dead on entry (every read is
preceded by a write), so its initial value is immaterial; we use 0. -/
def stem (w : List Char) : List Char :=
  let k : Int := (w.length : Int) - 1
  if k ≤ 1 then w
  else
    let st : StemSt := ⟨w, k, 0⟩
    let st := step5 (step4 (step3 (step2 (step1c (step1ab st)))))
    st.word.take (st.k + 1).toNat

/-! ## Query-side lexing (`SearchEngine`, search_engine.cpp) -/

/-- Which characters `std::istringstream >> std::string` treats as
separators (`std::isspace`, C locale). -/
def isSpc (c : Char) : Bool :=
  c = ' ' ∨ c = Char.ofNat 9 ∨ c = Char.ofNat 10 ∨ c = Char.ofNat 11 ∨
    c = Char.ofNat 12 ∨ c = Char.ofNat 13

/-- The paren-isolation pass at the top of `SearchEngine::search`: every
`(` and `)` is surrounded by spaces. -/
def expandParens (s : List Char) : List Char :=
  s.foldr (fun c acc => if c = '(' ∨ c = ')' then ' ' :: c :: ' ' :: acc else c :: acc) []

/-- Whitespace splitting, as the `while (iss >> token)` loop does. -/
def splitWsAux : List Char → List Char → List (List Char)
  | [], cur => if cur = [] then [] else [cur]
  | c :: rest, cur =>
    if isSpc c then (if cur = [] then splitWsAux rest [] else cur :: splitWsAux rest [])
    else splitWsAux rest (cur ++ [c])

/-- Split a string on whitespace into maximal nonempty words. -/
def splitWs (s : List Char) : List (List Char) := splitWsAux s []

/-- `SearchEngine::normalize_query_token`: parens pass through; otherwise
lower-case, then trim leading and trailing characters that are neither
alphanumeric nor apostrophe (the two-pointer scan of the source). -/
def normalize_query_token (tok : List Char) : List Char :=
  if tok = ['('] ∨ tok = [')'] then tok
  else
    let lowered := tok.map lowerCh
    let keep := fun c => isAlnumCh c ∨ c = apos
    let l2 := lowered.dropWhile (fun c => ¬ keep c)
    (l2.reverse.dropWhile (fun c => ¬ keep c)).reverse

/-- The normalized nonempty query tokens `SearchEngine::search` builds
from a raw query string. -/
def queryTokens (q : List Char) : List (List Char) :=
  ((splitWs (expandParens q)).map normalize_query_token).filter (fun t => t ≠ [])

/-- Indexing-path stems of a text: `Tokenizer::tokenize`, then
`PorterStemmer::stem` on each surface token (as `IndexBuilder::add_document`
does). -/
def docStems (s : List Char) : List (List Char) := (tokenize s).map stem

/-- Query-path stems of a string: paren isolation, whitespace splitting,
`normalize_query_token`, drop empties, then `PorterStemmer::stem` on each
token (as `SearchEngine::eval_rpn` stems term tokens). -/
def queryStems (s : List Char) : List (List Char) := (queryTokens s).map stem

/-! ## C1: analyzer parity between the indexing and query paths -/

/-- Joining words with single spaces, to state multi-word parity. -/
def joinSp : List (List Char) → List Char
  | [] => []
  | [w] => w
  | w :: ws => w ++ ' ' :: joinSp ws

/-- A clean surface token: length at least 2, all lowercase ASCII letters,
not a stop word. -/
def CleanWord (w : List Char) : Prop :=
  2 ≤ w.length ∧ (∀ c ∈ w, c.isLower) ∧ ¬ is_stop_word w

lemma toNat_of_isLower {c : Char} (h : c.isLower) : 97 ≤ c.toNat ∧ c.toNat ≤ 122 := by
  simp only [Char.isLower, Bool.and_eq_true, decide_eq_true_eq] at h
  exact ⟨h.1, h.2⟩

lemma lowerCh_of_isLower {c : Char} (h : c.isLower) : lowerCh c = c := by
  have h' := toNat_of_isLower h
  simp only [lowerCh, Char.toLower]
  rw [if_neg (by omega)]

lemma isAlphaCh_of_isLower {c : Char} (h : c.isLower) : isAlphaCh c = true := by
  simp [isAlphaCh, Char.isAlpha, h]

lemma isAlnumCh_of_isLower {c : Char} (h : c.isLower) : isAlnumCh c = true := by
  simp [isAlnumCh, Char.isAlphanum, Char.isAlpha, h]

lemma ne_of_toNat_ne {c d : Char} (h : c.toNat ≠ d.toNat) : c ≠ d := by
  intro hcd; exact h (by rw [hcd])

lemma isSpc_of_isLower {c : Char} (h : c.isLower) : isSpc c = false := by
  have h' := toNat_of_isLower h
  have hne : ∀ d : Char, d.toNat < 97 → c ≠ d := fun d hd => ne_of_toNat_ne (by omega)
  simp only [isSpc, decide_eq_false_iff_not]
  push_neg
  exact ⟨hne _ (by decide), hne _ (by decide), hne _ (by decide), hne _ (by decide),
    hne _ (by decide), hne _ (by decide)⟩

lemma not_paren_of_isLower {c : Char} (h : c.isLower) : c ≠ '(' ∧ c ≠ ')' := by
  have h' := toNat_of_isLower h
  have hne : ∀ d : Char, d.toNat < 97 → c ≠ d := fun d hd => ne_of_toNat_ne (by omega)
  exact ⟨hne _ (by decide), hne _ (by decide)⟩

lemma map_self {α : Type} {f : α → α} {l : List α} (h : ∀ a ∈ l, f a = a) :
    l.map f = l := by
  induction l with
  | nil => rfl
  | cons a l ih =>
    simp only [List.map_cons, h a (by simp)]
    rw [ih (fun b hb => h b (by simp [hb]))]

/-- Flushing a clean word always emits it unchanged. -/
lemma flushTok_clean {w : List Char} (h : CleanWord w) : flushTok w = [w] := by
  obtain ⟨hlen, hlow, hstop⟩ := h
  have hmap : w.map lowerCh = w := map_self (fun c hc => lowerCh_of_isLower (hlow c hc))
  simp [flushTok, hmap, hlen, hstop]

lemma tokenizeAux_alpha {w : List Char} (hw : ∀ c ∈ w, c.isLower) :
    ∀ cur, tokenizeAux w cur = flushTok (cur ++ w) := by
  induction w with
  | nil => intro cur; simp [tokenizeAux]
  | cons c r ih =>
    intro cur
    have hc : isAlphaCh c = true := isAlphaCh_of_isLower (hw c (by simp))
    rw [tokenizeAux]
    rw [if_pos (Or.inl hc)]
    rw [ih (fun d hd => hw d (by simp [hd])) (cur ++ [c])]
    simp

lemma tokenizeAux_alpha_sep {w : List Char} (hw : ∀ c ∈ w, c.isLower) (t : List Char) :
    ∀ cur, tokenizeAux (w ++ ' ' :: t) cur = flushTok (cur ++ w) ++ tokenizeAux t [] := by
  induction w with
  | nil =>
    intro cur
    rw [List.nil_append, tokenizeAux]
    rw [if_neg (by rintro (h | ⟨h, -⟩) <;> exact absurd h (by decide))]
    simp
  | cons c r ih =>
    intro cur
    have hc : isAlphaCh c = true := isAlphaCh_of_isLower (hw c (by simp))
    rw [List.cons_append, tokenizeAux]
    rw [if_pos (Or.inl hc)]
    rw [ih (fun d hd => hw d (by simp [hd])) (cur ++ [c])]
    simp

/-- `Tokenizer::tokenize` recovers a space-joined list of clean words. -/
lemma tokenize_joinSp {ws : List (List Char)} (h : ∀ w ∈ ws, CleanWord w) :
    tokenize (joinSp ws) = ws := by
  induction ws with
  | nil => rfl
  | cons w ws ih =>
    cases ws with
    | nil =>
      have hw := h w (by simp)
      simp only [joinSp, tokenize]
      rw [tokenizeAux_alpha hw.2.1 []]
      simpa using flushTok_clean hw
    | cons w' ws' =>
      have hw := h w (by simp)
      simp only [joinSp, tokenize]
      rw [tokenizeAux_alpha_sep hw.2.1 _ []]
      rw [List.nil_append, flushTok_clean hw]
      have := ih (fun v hv => h v (by simp [hv]))
      simp only [joinSp, tokenize] at this
      simp [this]

lemma expandParens_id {s : List Char} (h : ∀ c ∈ s, c ≠ '(' ∧ c ≠ ')') :
    expandParens s = s := by
  induction s with
  | nil => rfl
  | cons c r ih =>
    have hc := h c (by simp)
    simp only [expandParens, List.foldr_cons]
    rw [if_neg (by tauto)]
    have := ih (fun d hd => h d (by simp [hd]))
    simpa [expandParens] using this

lemma splitWsAux_nonspace {w : List Char} (hw : ∀ c ∈ w, isSpc c = false) :
    ∀ cur, cur ++ w ≠ [] → splitWsAux w cur = [cur ++ w] := by
  induction w with
  | nil => intro cur hne; simp only [splitWsAux]; simpa using hne
  | cons c r ih =>
    intro cur hne
    have hc : isSpc c = false := hw c (by simp)
    rw [splitWsAux, if_neg (by simp [hc])]
    rw [ih (fun d hd => hw d (by simp [hd])) (cur ++ [c]) (by simp)]
    simp

lemma splitWsAux_sep {w : List Char} (hw : ∀ c ∈ w, isSpc c = false) (t : List Char) :
    ∀ cur, cur ++ w ≠ [] → splitWsAux (w ++ ' ' :: t) cur = (cur ++ w) :: splitWsAux t [] := by
  induction w with
  | nil =>
    intro cur hne
    rw [List.nil_append, splitWsAux, if_pos (by decide)]
    simp only [List.append_nil] at hne ⊢
    rw [if_neg hne]
  | cons c r ih =>
    intro cur hne
    have hc : isSpc c = false := hw c (by simp)
    rw [List.cons_append, splitWsAux, if_neg (by simp [hc])]
    rw [ih (fun d hd => hw d (by simp [hd])) (cur ++ [c]) (by simp)]
    simp

/-- Whitespace splitting recovers a space-joined list of clean words. -/
lemma splitWs_joinSp {ws : List (List Char)} (h : ∀ w ∈ ws, CleanWord w) :
    splitWs (joinSp ws) = ws := by
  induction ws with
  | nil => rfl
  | cons w ws ih =>
    have hw := h w (by simp)
    have hns : ∀ c ∈ w, isSpc c = false := fun c hc => isSpc_of_isLower (hw.2.1 c hc)
    have hne : ([] : List Char) ++ w ≠ [] := by
      simp only [List.nil_append]
      intro he; rw [he] at hw; exact absurd hw.1 (by simp)
    cases ws with
    | nil =>
      simp only [joinSp, splitWs]
      rw [splitWsAux_nonspace hns [] hne]
      simp
    | cons w' ws' =>
      simp only [joinSp, splitWs]
      rw [splitWsAux_sep hns _ [] hne]
      have := ih (fun v hv => h v (by simp [hv]))
      simp only [joinSp, splitWs] at this
      simp [this]

lemma dropWhile_none {p : Char → Bool} {l : List Char} (h : ∀ c ∈ l, p c = false) :
    l.dropWhile p = l := by
  cases l with
  | nil => rfl
  | cons c r => rw [List.dropWhile_cons, if_neg (by simp [h c (by simp)])]

/-- `normalize_query_token` is the identity on clean words. -/
lemma normalize_clean {w : List Char} (h : CleanWord w) : normalize_query_token w = w := by
  obtain ⟨hlen, hlow, _⟩ := h
  have hnp : ¬ (w = ['('] ∨ w = [')']) := by
    intro hor
    rcases hor with h1 | h1 <;> (rw [h1] at hlen; exact absurd hlen (by decide))
  have hmap : w.map lowerCh = w := map_self (fun c hc => lowerCh_of_isLower (hlow c hc))
  simp only [normalize_query_token, if_neg hnp, hmap]
  rw [dropWhile_none (l := w) (by intro c hc; simp [isAlnumCh_of_isLower (hlow c hc)])]
  rw [dropWhile_none (l := w.reverse)
    (by intro c hc; simp [isAlnumCh_of_isLower (hlow c (List.mem_reverse.mp hc))])]
  simp

/-- C1, amended: the indexing path (`tokenize` then `stem`) and the query
path (whitespace split with paren isolation, `normalize_query_token`,
then `stem`) produce identical stem sequences on every string that is a
space-joined sequence of clean surface tokens (length at least 2, lowercase
ASCII letters, not stop words); on such strings both equal the map of
`stem` over the tokens.  (The unrestricted claim is refuted by
`analyzer_parity_cex`.) -/
lemma joinSp_no_paren {ws : List (List Char)} (h : ∀ w ∈ ws, CleanWord w) :
    ∀ c ∈ joinSp ws, c ≠ '(' ∧ c ≠ ')' := by
  induction ws with
  | nil => intro c hc; simp [joinSp] at hc
  | cons w ws ih =>
    intro c hc
    cases ws with
    | nil =>
      simp only [joinSp] at hc
      exact not_paren_of_isLower ((h w (by simp)).2.1 c hc)
    | cons w' ws' =>
      simp only [joinSp, List.mem_append, List.mem_cons] at hc
      rcases hc with hc | hc | hc
      · exact not_paren_of_isLower ((h w (by simp)).2.1 c hc)
      · rw [hc]; exact ⟨by decide, by decide⟩
      · exact ih (fun v hv => h v (by simp [hv])) c (by simpa [joinSp] using hc)

/-- The full query lexer recovers a space-joined list of clean words. -/
lemma queryTokens_joinSp {ws : List (List Char)} (h : ∀ w ∈ ws, CleanWord w) :
    queryTokens (joinSp ws) = ws := by
  unfold queryTokens
  rw [expandParens_id (joinSp_no_paren h), splitWs_joinSp h,
    map_self (fun w hw => normalize_clean (h w hw))]
  apply List.filter_eq_self.2
  intro w hw
  have h1 := (h w hw).1
  have hne : w ≠ [] := by intro he; rw [he] at h1; exact absurd h1 (by simp)
  simp [hne]

theorem analyzer_parity (ws : List (List Char)) (h : ∀ w ∈ ws, CleanWord w) :
    docStems (joinSp ws) = queryStems (joinSp ws) ∧
      docStems (joinSp ws) = ws.map stem := by
  have hdoc : docStems (joinSp ws) = ws.map stem := by
    simp [docStems, tokenize_joinSp h]
  have hq : queryStems (joinSp ws) = ws.map stem := by
    simp [queryStems, queryTokens_joinSp h]
  exact ⟨hdoc.trans hq.symm, hdoc⟩

/-- Witness for `analyzer_parity` at the single clean token `vault`. -/
theorem analyzer_parity_witness :
    (∀ w ∈ [("vault".toList)], CleanWord w) ∧
      docStems (joinSp [("vault".toList)]) = queryStems (joinSp [("vault".toList)]) := by
  have h : ∀ w ∈ [("vault".toList)], CleanWord w := by
    intro w hw
    simp only [List.mem_singleton] at hw
    subst hw
    exact ⟨by decide, by decide, by decide⟩
  exact ⟨h, (analyzer_parity [("vault".toList)] h).1⟩

/-- Counterexample to C1 as stated: on the string `the` the indexing path
drops the stop word and produces no stems, while the query path keeps and
stems it. -/
theorem analyzer_parity_cex :
    docStems ("the".toList) ≠ queryStems ("the".toList) := by decide

/-! ## Sorted-merge set operations (`SearchEngine::intersect`,
`union_lists`, `difference`) on doc-id lists -/

/-- `SearchEngine::intersect`: two-pointer sorted-merge intersection. -/
def intersect : List Int → List Int → List Int
  | [], _ => []
  | _ :: _, [] => []
  | a :: as, b :: bs =>
    if a = b then a :: intersect as bs
    else if a < b then intersect as (b :: bs)
    else intersect (a :: as) bs
termination_by l1 l2 => l1.length + l2.length

/-- `SearchEngine::union_lists`: two-pointer sorted-merge union. -/
def union_lists : List Int → List Int → List Int
  | [], ys => ys
  | x :: xs, [] => x :: xs
  | a :: as, b :: bs =>
    if a < b then a :: union_lists as (b :: bs)
    else if b < a then b :: union_lists (a :: as) bs
    else a :: union_lists as bs
termination_by l1 l2 => l1.length + l2.length

/-- `SearchEngine::difference`: two-pointer sorted-merge difference. -/
def difference : List Int → List Int → List Int
  | [], _ => []
  | x :: xs, [] => x :: xs
  | a :: as, b :: bs =>
    if a = b then difference as bs
    else if a < b then a :: difference as (b :: bs)
    else difference (a :: as) bs
termination_by l1 l2 => l1.length + l2.length

lemma not_mem_of_lt_head {x b : Int} {bs : List Int}
    (h : List.Sorted (· < ·) (b :: bs)) (hx : x < b) : x ∉ b :: bs := by
  rw [List.sorted_cons] at h
  intro hm
  rcases List.mem_cons.mp hm with he | hm
  · omega
  · have := h.1 x hm; omega

lemma intersect_sublist : ∀ A B : List Int, (intersect A B).Sublist A := by
  intro A B
  induction A, B using intersect.induct with
  | case1 B => simp [intersect]
  | case2 a as => simp [intersect]
  | case3 as b bs ih => rw [intersect, if_pos rfl]; exact ih.cons₂ b
  | case4 a as b bs he hlt ih =>
    rw [intersect, if_neg he, if_pos hlt]
    exact ih.trans (List.sublist_cons_self a as)
  | case5 a as b bs he hlt ih => rw [intersect, if_neg he, if_neg hlt]; exact ih

lemma difference_sublist : ∀ A B : List Int, (difference A B).Sublist A := by
  intro A B
  induction A, B using difference.induct with
  | case1 B => simp [difference]
  | case2 a as => simp [difference]
  | case3 as b bs ih =>
    rw [difference, if_pos rfl]; exact ih.trans (List.sublist_cons_self b as)
  | case4 a as b bs he hlt ih => rw [difference, if_neg he, if_pos hlt]; exact ih.cons₂ a
  | case5 a as b bs he hlt ih => rw [difference, if_neg he, if_neg hlt]; exact ih

lemma mem_union_lists {x : Int} :
    ∀ A B : List Int, x ∈ union_lists A B ↔ x ∈ A ∨ x ∈ B := by
  intro A B
  induction A, B using union_lists.induct with
  | case1 B => simp [union_lists]
  | case2 a as => simp [union_lists]
  | case3 a as b bs hlt ih =>
    rw [union_lists, if_pos hlt]
    simp only [List.mem_cons, ih]
    tauto
  | case4 a as b bs hlt hgt ih =>
    rw [union_lists, if_neg hlt, if_pos hgt]
    simp only [List.mem_cons, ih]
    tauto
  | case5 a as b bs hlt hgt ih =>
    rw [union_lists, if_neg hlt, if_neg hgt]
    have he : a = b := by omega
    subst he
    simp only [List.mem_cons, ih]
    tauto

lemma union_lists_sorted :
    ∀ A B : List Int, List.Sorted (· < ·) A → List.Sorted (· < ·) B →
      List.Sorted (· < ·) (union_lists A B) := by
  intro A B hA hB
  induction A, B using union_lists.induct with
  | case1 B => simpa [union_lists] using hB
  | case2 a as => simpa [union_lists] using hA
  | case3 a as b bs hlt ih =>
    rw [List.sorted_cons] at hA
    rw [union_lists, if_pos hlt, List.sorted_cons]
    refine ⟨?_, ih hA.2 hB⟩
    intro y hy
    rcases (mem_union_lists as (b :: bs)).mp hy with hy | hy
    · exact hA.1 y hy
    · rcases List.mem_cons.mp hy with he | hy
      · omega
      · rw [List.sorted_cons] at hB
        have := hB.1 y hy; omega
  | case4 a as b bs hlt hgt ih =>
    rw [List.sorted_cons] at hB
    rw [union_lists, if_neg hlt, if_pos hgt, List.sorted_cons]
    refine ⟨?_, ih hA hB.2⟩
    intro y hy
    rcases (mem_union_lists (a :: as) bs).mp hy with hy | hy
    · rcases List.mem_cons.mp hy with he | hy
      · omega
      · rw [List.sorted_cons] at hA
        have := hA.1 y hy; omega
    · exact hB.1 y hy
  | case5 a as b bs hlt hgt ih =>
    have he : a = b := by omega
    subst he
    rw [List.sorted_cons] at hA hB
    rw [union_lists, if_neg hlt, if_neg hgt, List.sorted_cons]
    refine ⟨?_, ih hA.2 hB.2⟩
    intro y hy
    rcases (mem_union_lists as bs).mp hy with hy | hy
    · exact hA.1 y hy
    · exact hB.1 y hy

lemma mem_intersect {x : Int} :
    ∀ A B : List Int, List.Sorted (· < ·) A → List.Sorted (· < ·) B →
      (x ∈ intersect A B ↔ x ∈ A ∧ x ∈ B) := by
  intro A B hA hB
  induction A, B using intersect.induct with
  | case1 B => simp [intersect]
  | case2 a as => simp [intersect]
  | case3 as b bs ih =>
    rw [List.sorted_cons] at hA hB
    rw [intersect, if_pos rfl]
    simp only [List.mem_cons, ih hA.2 hB.2]
    constructor
    · rintro (he | ⟨h1, h2⟩)
      · exact ⟨Or.inl he, Or.inl he⟩
      · exact ⟨Or.inr h1, Or.inr h2⟩
    · rintro ⟨h1 | h1, h2⟩
      · exact Or.inl h1
      · rcases h2 with rfl | h2
        · have := hA.1 _ h1; omega
        · exact Or.inr ⟨h1, h2⟩
  | case4 a as b bs he hlt ih =>
    rw [intersect, if_neg he, if_pos hlt]
    rw [List.sorted_cons] at hA
    rw [ih hA.2 hB]
    simp only [List.mem_cons]
    constructor
    · rintro ⟨h1, h2⟩; exact ⟨Or.inr h1, h2⟩
    · rintro ⟨h1 | h1, h2⟩
      · subst h1
        exact absurd (List.mem_cons.mpr h2) (not_mem_of_lt_head hB hlt)
      · exact ⟨h1, h2⟩
  | case5 a as b bs he hlt ih =>
    rw [intersect, if_neg he, if_neg hlt]
    rw [List.sorted_cons] at hB
    rw [ih hA hB.2]
    simp only [List.mem_cons]
    constructor
    · rintro ⟨h1, h2⟩; exact ⟨h1, Or.inr h2⟩
    · rintro ⟨h1, h2 | h2⟩
      · rcases h1 with h3 | h3
        · omega
        · rw [List.sorted_cons] at hA
          have := hA.1 x h3; omega
      · exact ⟨h1, h2⟩

lemma mem_difference {x : Int} :
    ∀ A B : List Int, List.Sorted (· < ·) A → List.Sorted (· < ·) B →
      (x ∈ difference A B ↔ x ∈ A ∧ x ∉ B) := by
  intro A B hA hB
  induction A, B using difference.induct with
  | case1 B => simp [difference]
  | case2 a as => simp [difference]
  | case3 as b bs ih =>
    rw [List.sorted_cons] at hA hB
    rw [difference, if_pos rfl]
    rw [ih hA.2 hB.2]
    simp only [List.mem_cons]
    constructor
    · rintro ⟨h1, h2⟩
      refine ⟨Or.inr h1, ?_⟩
      rintro (h3 | h3)
      · have := hA.1 x h1; omega
      · exact h2 h3
    · rintro ⟨h1 | h1, h2⟩
      · subst h1; exact absurd (Or.inl rfl) h2
      · exact ⟨h1, fun h3 => h2 (Or.inr h3)⟩
  | case4 a as b bs he hlt ih =>
    rw [difference, if_neg he, if_pos hlt]
    rw [List.sorted_cons] at hA
    simp only [List.mem_cons, ih hA.2 hB]
    constructor
    · rintro (h1 | ⟨h1, h2⟩)
      · subst h1
        refine ⟨Or.inl rfl, ?_⟩
        intro h3
        exact not_mem_of_lt_head hB hlt (List.mem_cons.mpr h3)
      · exact ⟨Or.inr h1, h2⟩
    · rintro ⟨h1 | h1, h2⟩
      · exact Or.inl h1
      · exact Or.inr ⟨h1, h2⟩
  | case5 a as b bs he hlt ih =>
    rw [difference, if_neg he, if_neg hlt]
    rw [List.sorted_cons] at hB
    rw [ih hA hB.2]
    simp only [List.mem_cons]
    constructor
    · rintro ⟨h1, h2⟩
      refine ⟨h1, ?_⟩
      rintro (h3 | h3)
      · have hgt : b < x := by
          rcases h1 with h4 | h4
          · omega
          · rw [List.sorted_cons] at hA
            have := hA.1 x h4; omega
        omega
      · exact h2 h3
    · rintro ⟨h1, h2⟩
      exact ⟨h1, fun h3 => h2 (Or.inr h3)⟩

/-- C3: on strictly ascending integer lists, `intersect`, `union_lists`
and `difference` compute the set intersection, union and difference, and
all three outputs are strictly ascending. -/
theorem set_ops (A B : List Int)
    (hA : List.Sorted (· < ·) A) (hB : List.Sorted (· < ·) B) :
    (∀ x, x ∈ intersect A B ↔ x ∈ A ∧ x ∈ B) ∧
    (∀ x, x ∈ union_lists A B ↔ x ∈ A ∨ x ∈ B) ∧
    (∀ x, x ∈ difference A B ↔ x ∈ A ∧ x ∉ B) ∧
    List.Sorted (· < ·) (intersect A B) ∧
    List.Sorted (· < ·) (union_lists A B) ∧
    List.Sorted (· < ·) (difference A B) :=
  ⟨fun _ => mem_intersect A B hA hB,
   fun _ => mem_union_lists A B,
   fun _ => mem_difference A B hA hB,
   hA.sublist (intersect_sublist A B),
   union_lists_sorted A B hA hB,
   hA.sublist (difference_sublist A B)⟩

/-- Witness for `set_ops` on concrete ascending lists. -/
theorem set_ops_witness :
    List.Sorted (· < ·) ([1, 3, 5] : List Int) ∧
      List.Sorted (· < ·) ([2, 3] : List Int) ∧
      (∀ x, x ∈ intersect [1, 3, 5] [2, 3] ↔ x ∈ ([1, 3, 5] : List Int) ∧ x ∈ ([2, 3] : List Int)) := by
  have h1 : List.Sorted (· < ·) ([1, 3, 5] : List Int) := by decide
  have h2 : List.Sorted (· < ·) ([2, 3] : List Int) := by decide
  exact ⟨h1, h2, (set_ops [1, 3, 5] [2, 3] h1 h2).1⟩

/-! ## Loaded index and RPN evaluation (`SearchEngine`) -/

/-- The in-memory state of a loaded `SearchEngine`: `inverted_index_`
(an association list mirroring the hash map, keys unique), and the three
parallel document arrays. -/
structure SIndex where
  inv : List (List Char × List (Int × Int))
  urls : List (List Char)
  titles : List (List Char)
  lens : List Int

/-- `HashMap::find` on the inverted index: first matching key. -/
def findTerm : List (List Char × List (Int × Int)) → List Char → Option (List (Int × Int))
  | [], _ => none
  | (k, v) :: rest, t => if k = t then some v else findTerm rest t

/-- `SearchEngine::posting_doc_ids`: project a stemmed term's posting list
to its doc ids (empty when the term is unknown). -/
def posting_doc_ids (idx : SIndex) (t : List Char) : List Int :=
  match findTerm idx.inv t with
  | none => []
  | some pl => pl.map (fun p => p.1)

/-- `SearchEngine::all_document_ids`: indices of non-hole slots (nonempty
URL), in increasing order. -/
def all_document_ids (idx : SIndex) : List Int :=
  ((List.range idx.urls.length).filter (fun i => idx.urls.getD i [] ≠ [])).map
    (fun i => Int.ofNat i)

/-- `SearchEngine::contains_doc`: linear scan of a posting list. -/
def contains_doc (pl : List (Int × Int)) (d : Int) : Bool :=
  pl.any (fun p => p.1 = d)

/-- `SearchEngine::term_tf_for_doc`: linear scan, first hit, 0 if absent. -/
def term_tf_for_doc (pl : List (Int × Int)) (d : Int) : Int :=
  match pl with
  | [] => 0
  | p :: rest => if p.1 = d then p.2 else term_tf_for_doc rest d

/-- `SearchEngine::is_operator_token`. -/
def is_operator_token (t : List Char) : Bool :=
  t = "and".toList ∨ t = "or".toList ∨ t = "not".toList

/-- `SearchEngine::operator_precedence`. -/
def operator_precedence (op : List Char) : Int :=
  if op = "not".toList then 3
  else if op = "and".toList then 2
  else if op = "or".toList then 1
  else 0

/-- `SearchEngine::is_left_associative`. -/
def is_left_associative (op : List Char) : Bool := op ≠ "not".toList

/-- One iteration of the `SearchEngine::eval_rpn` loop.  The evaluation
stack has its top at the head (the source indexes `stack[size - 1]`). -/
def evalStep (idx : SIndex) (st : List (List Int)) (tok : List Char) : List (List Int) :=
  if ¬ is_operator_token tok then posting_doc_ids idx (stem tok) :: st
  else if tok = "not".toList then
    match st with
    | [] => st
    | r :: rest =>
      match rest with
      | l :: rest2 => difference l r :: rest2
      | [] => [difference (all_document_ids idx) r]
  else
    match st with
    | r :: l :: rest =>
      if tok = "and".toList then intersect l r :: rest
      else if tok = "or".toList then union_lists l r :: rest
      else rest
    | _ => st

/-- `SearchEngine::eval_rpn`: fold the step over the tokens; the result is
the top of the final stack, or the empty list. -/
def eval_rpn (idx : SIndex) (toks : List (List Char)) : List Int :=
  match toks.foldl (evalStep idx) [] with
  | [] => []
  | t :: _ => t

/-- The `)` loop of `SearchEngine::to_rpn`: pop operators to the output
until a `(` or an empty stack. -/
def popToParen : List (List Char) → List (List Char) → List (List Char) × List (List Char)
  | output, [] => (output, [])
  | output, top :: rest =>
    if top = ['('] then (output, top :: rest)
    else popToParen (output ++ [top]) rest

/-- The operator loop of `SearchEngine::to_rpn`: pop while the stack top is
an operator that should be popped before `cur`. -/
def popWhileOps (cur : List Char) :
    List (List Char) → List (List Char) → List (List Char) × List (List Char)
  | output, [] => (output, [])
  | output, top :: rest =>
    if is_operator_token top then
      if operator_precedence top > operator_precedence cur ∨
          (operator_precedence top = operator_precedence cur ∧ is_left_associative cur) then
        popWhileOps cur (output ++ [top]) rest
      else (output, top :: rest)
    else (output, top :: rest)

/-- The final drain of `SearchEngine::to_rpn`: pop everything, dropping
unmatched `(`. -/
def drainOps : List (List Char) → List (List Char) → List (List Char)
  | output, [] => output
  | output, top :: rest =>
    if top = ['('] then drainOps output rest else drainOps (output ++ [top]) rest

/-- Main loop of `SearchEngine::to_rpn` (shunting-yard). -/
def toRpnAux : List (List Char) → List (List Char) → List (List Char) → List (List Char)
  | [], output, op_stack => drainOps output op_stack
  | tok :: rest, output, op_stack =>
    if tok = [] then toRpnAux rest output op_stack
    else if tok = ['('] then toRpnAux rest output (tok :: op_stack)
    else if tok = [')'] then
      let p := popToParen output op_stack
      let st3 :=
        match p.2 with
        | q :: r => if q = ['('] then r else q :: r
        | [] => []
      toRpnAux rest p.1 st3
    else if ¬ is_operator_token tok then toRpnAux rest (output ++ [tok]) op_stack
    else
      let p := popWhileOps tok output op_stack
      toRpnAux rest p.1 (tok :: p.2)

/-- `SearchEngine::to_rpn`. -/
def to_rpn (tokens : List (List Char)) : List (List Char) := toRpnAux tokens [] []

/-- `SearchEngine::extract_query_terms`: stems of the non-operator,
non-paren, nonempty tokens, deduplicated in first-occurrence order. -/
def extract_query_terms (tokens : List (List Char)) : List (List Char) :=
  tokens.foldl
    (fun acc tok =>
      if tok = [] ∨ is_operator_token tok ∨ tok = ['('] ∨ tok = [')'] then acc
      else
        let s := stem tok
        if s = [] then acc
        else if acc.contains s then acc
        else acc ++ [s])
    []

/-! ## C6: evaluator totality and underflow behaviour -/

/-- C6: `eval_rpn` is total (it is a Lean function), an `and` or `or` hit
with fewer than two operand lists on the stack leaves the stack unchanged,
and the final result is the top of the stack, or the empty list when the
stack is empty. -/
theorem eval_rpn_total (idx : SIndex) (toks : List (List Char)) (st : List (List Int))
    (h : st.length < 2) :
    evalStep idx st ("and".toList) = st ∧ evalStep idx st ("or".toList) = st ∧
      eval_rpn idx toks = (toks.foldl (evalStep idx) []).headD [] := by
  refine ⟨?_, ?_, ?_⟩
  · rcases st with _ | ⟨x, _ | ⟨y, rest⟩⟩
    · rfl
    · rfl
    · exact absurd h (by simp)
  · rcases st with _ | ⟨x, _ | ⟨y, rest⟩⟩
    · rfl
    · rfl
    · exact absurd h (by simp)
  · cases hfold : toks.foldl (evalStep idx) [] with
    | nil => simp [eval_rpn, hfold]
    | cons t ts => simp [eval_rpn, hfold]

/-- Witness for `eval_rpn_total` on a one-element stack and a malformed
RPN token list. -/
theorem eval_rpn_total_witness :
    ([([0] : List Int)] : List (List Int)).length < 2 ∧
      evalStep ⟨[], [], [], []⟩ [[0]] ("and".toList) = [[0]] ∧
      eval_rpn ⟨[], [], [], []⟩ [("and".toList)] =
        (([("and".toList)]).foldl (evalStep ⟨[], [], [], []⟩) []).headD [] := by
  have h := eval_rpn_total ⟨[], [], [], []⟩ [("and".toList)] [[0]] (by decide)
  exact ⟨by decide, h.1, h.2.2⟩

/-! ## C5: pure-NOT semantics -/

lemma all_document_ids_sorted (idx : SIndex) :
    List.Sorted (· < ·) (all_document_ids idx) := by
  have h1 : List.Pairwise (· < ·)
      ((List.range idx.urls.length).filter (fun i => idx.urls.getD i [] ≠ [])) :=
    List.Pairwise.filter _ (List.pairwise_lt_range _)
  exact List.pairwise_map.mpr (h1.imp (fun hab => Int.ofNat_lt.mpr hab))

lemma difference_eq_filter :
    ∀ A B : List Int, List.Sorted (· < ·) A → List.Sorted (· < ·) B →
      difference A B = A.filter (fun x => x ∉ B) := by
  intro A B hA hB
  induction A, B using difference.induct with
  | case1 B => simp [difference]
  | case2 a as => simp [difference]
  | case3 as b bs ih =>
    rw [List.sorted_cons] at hA hB
    rw [difference, if_pos rfl, ih hA.2 hB.2]
    rw [List.filter_cons]
    rw [if_neg (by simp)]
    apply List.filter_congr
    intro x hx
    have hbx := hA.1 x hx
    simp only [List.mem_cons, decide_eq_decide]
    constructor
    · rintro hc (h1 | h1)
      · omega
      · exact hc h1
    · intro hc hin; exact hc (Or.inr hin)
  | case4 a as b bs he hlt ih =>
    rw [List.sorted_cons] at hA
    rw [difference, if_neg he, if_pos hlt, ih hA.2 hB]
    rw [List.filter_cons]
    rw [if_pos (by simpa using not_mem_of_lt_head hB hlt)]
  | case5 a as b bs he hlt ih =>
    rw [List.sorted_cons] at hB
    rw [difference, if_neg he, if_neg hlt, ih hA hB.2]
    apply List.filter_congr
    intro x hx
    have hbx : b < x := by
      rw [List.sorted_cons] at hA
      rcases List.mem_cons.mp hx with h1 | h1
      · omega
      · have := hA.1 x h1; omega
    simp only [List.mem_cons, decide_eq_decide]
    constructor
    · rintro hc (h1 | h1)
      · omega
      · exact hc h1
    · intro hc hin; exact hc (Or.inr hin)

/-- C5: applying `not` during RPN evaluation with exactly one (strictly
ascending) operand list `R` on the stack pushes the strictly ascending
list of all non-hole doc ids not in `R`; a doc id is in that list iff it
names a slot with a nonempty URL and is not in `R`. -/
theorem pure_not (idx : SIndex) (R : List Int) (hR : List.Sorted (· < ·) R) :
    evalStep idx [R] ("not".toList) =
      [(all_document_ids idx).filter (fun d => d ∉ R)] ∧
    List.Sorted (· < ·) ((all_document_ids idx).filter (fun d => d ∉ R)) ∧
    (∀ d : Int, d ∈ (all_document_ids idx).filter (fun d => d ∉ R) ↔
      0 ≤ d ∧ d.toNat < idx.urls.length ∧ idx.urls.getD d.toNat [] ≠ [] ∧ d ∉ R) := by
  refine ⟨?_, ?_, ?_⟩
  · show [difference (all_document_ids idx) R] = _
    rw [difference_eq_filter _ _ (all_document_ids_sorted idx) hR]
  · exact (all_document_ids_sorted idx).filter _
  · intro d
    rw [List.mem_filter]
    constructor
    · rintro ⟨hmm, hnr⟩
      rw [all_document_ids, List.mem_map] at hmm
      obtain ⟨i, hif, rfl⟩ := hmm
      rw [List.mem_filter, List.mem_range] at hif
      obtain ⟨hir, hne⟩ := hif
      refine ⟨Int.ofNat_nonneg i, ?_, ?_, of_decide_eq_true hnr⟩
      · simpa using hir
      · simpa using hne
    · rintro ⟨h0, hlt, hne, hnr⟩
      refine ⟨?_, decide_eq_true hnr⟩
      rw [all_document_ids, List.mem_map]
      refine ⟨d.toNat, ?_, Int.toNat_of_nonneg h0⟩
      rw [List.mem_filter, List.mem_range]
      exact ⟨hlt, by simpa using hne⟩

/-- Concrete index for the `pure_not` witness: slot 1 is a hole. -/
def w5idx : SIndex := ⟨[], [['u'], [], ['v']], [[], [], []], [0, 0, 0]⟩

/-- Witness for `pure_not`: universe `{0, 2}` minus `R = [0]` is `[2]`. -/
theorem pure_not_witness :
    List.Sorted (· < ·) ([0] : List Int) ∧
      evalStep w5idx [[0]] ("not".toList) =
        [(all_document_ids w5idx).filter (fun d => d ∉ ([0] : List Int))] ∧
      (all_document_ids w5idx).filter (fun d => d ∉ ([0] : List Int)) = [2] := by
  have h0 : List.Sorted (· < ·) ([0] : List Int) := by decide
  exact ⟨h0, (pure_not w5idx [0] h0).1, by decide⟩

/-! ## C4: the ranking formula (`SearchEngine::compute_doc_score`)

`double` arithmetic is modelled over `ℚ`; `std::log` and `std::sqrt` are
abstract parameters `lg`, `sq`.  The literals `0.35` and `0.15` are the
rationals `35/100` and `15/100`. -/

/-- `SearchEngine::to_lower_ascii`. -/
def to_lower_ascii (s : List Char) : List Char := s.map lowerCh

/-- Prefix test used by substring search. -/
def isPre : List Char → List Char → Bool
  | [], _ => true
  | _ :: _, [] => false
  | a :: as, b :: bs => a = b ∧ isPre as bs

/-- `std::string::find(pat) != npos`: `pat` occurs contiguously in `s`
(an empty pattern always occurs, as `find` returns 0). -/
def isSubstr (pat : List Char) : List Char → Bool
  | [] => isPre pat []
  | c :: rest => isPre pat (c :: rest) ∨ isSubstr pat rest

/-- Loop body of `SearchEngine::compute_doc_score` (one query term):
skip unknown terms and terms with `tf <= 0`, otherwise add the tf-idf
product and the title/URL substring bonuses. -/
def scoreStep (lg : ℚ → ℚ) (idx : SIndex) (doc_id : Int) (total_docs : ℚ)
    (title_lower url_lower : List Char) (acc : ℚ) (t : List Char) : ℚ :=
  match findTerm idx.inv t with
  | none => acc
  | some pl =>
    let tf := term_tf_for_doc pl doc_id
    if tf ≤ 0 then acc
    else
      let df : ℚ := pl.length
      let tf_weight : ℚ := 1 + lg (tf : ℚ)
      let idf : ℚ := lg ((total_docs + 1) / (df + 1)) + 1
      let acc2 := acc + tf_weight * idf
      let acc3 := if isSubstr t title_lower then acc2 + 35/100 else acc2
      if isSubstr t url_lower then acc3 + 15/100 else acc3

/-- `SearchEngine::compute_doc_score`. -/
def compute_doc_score (lg sq : ℚ → ℚ) (idx : SIndex) (doc_id : Int)
    (query_terms : List (List Char)) : ℚ :=
  if doc_id < 0 ∨ (idx.urls.length : Int) ≤ doc_id then -1
  else
    let score := query_terms.foldl
      (scoreStep lg idx doc_id (idx.urls.length : ℚ)
        (to_lower_ascii (idx.titles.getD doc_id.toNat []))
        (to_lower_ascii (idx.urls.getD doc_id.toNat [])))
      0
    if doc_id.toNat < idx.lens.length ∧ 0 < idx.lens.getD doc_id.toNat 0 then
      score / sq ((idx.lens.getD doc_id.toNat 0 : ℚ))
    else score

/-- The claim's per-term contribution, written from the spec formula:
`(1 + ln tf(t,d)) * (ln((N+1)/(df+1)) + 1)` plus the `0.35` title and
`0.15` URL substring bonuses. -/
def spec_term_contrib (lg : ℚ → ℚ) (idx : SIndex) (doc_id : Int) (N : ℚ)
    (titleL urlL : List Char) (t : List Char) : ℚ :=
  match findTerm idx.inv t with
  | none => 0
  | some pl =>
    (1 + lg ((term_tf_for_doc pl doc_id : Int) : ℚ)) *
      (lg ((N + 1) / ((pl.length : ℚ) + 1)) + 1) +
    (if isSubstr t titleL then 35/100 else 0) +
    (if isSubstr t urlL then 15/100 else 0)

/-- Does the posting list of `t` contain `d` (false for unknown terms)? -/
def termHasDoc (idx : SIndex) (doc_id : Int) (t : List Char) : Bool :=
  match findTerm idx.inv t with
  | none => false
  | some pl => contains_doc pl doc_id

/-- The claim's score formula: sum over the query terms whose posting list
contains `d`, divided by `sqrt(length(d))` when `length(d) > 0`. -/
def spec_score (lg sq : ℚ → ℚ) (idx : SIndex) (doc_id : Int)
    (query_terms : List (List Char)) : ℚ :=
  let N : ℚ := idx.urls.length
  let titleL := to_lower_ascii (idx.titles.getD doc_id.toNat [])
  let urlL := to_lower_ascii (idx.urls.getD doc_id.toNat [])
  let S := ((query_terms.filter (termHasDoc idx doc_id)).map
    (spec_term_contrib lg idx doc_id N titleL urlL)).sum
  if 0 < idx.lens.getD doc_id.toNat 0 then S / sq ((idx.lens.getD doc_id.toNat 0 : ℚ))
  else S

lemma term_tf_mem {pl : List (Int × Int)} {d : Int} (h : contains_doc pl d = true) :
    ∃ q ∈ pl, q.1 = d ∧ term_tf_for_doc pl d = q.2 := by
  induction pl with
  | nil => simp [contains_doc] at h
  | cons p rest ih =>
    by_cases hp : p.1 = d
    · exact ⟨p, by simp, hp, by simp [term_tf_for_doc, hp]⟩
    · have h' : contains_doc rest d = true := by
        simp only [contains_doc, List.any_cons, Bool.or_eq_true, decide_eq_true_eq] at h
        rcases h with h | h
        · exact absurd h hp
        · simpa [contains_doc] using h
      obtain ⟨q, hq, hq1, hq2⟩ := ih h'
      exact ⟨q, by simp [hq], hq1, by simp [term_tf_for_doc, hp, hq2]⟩

lemma term_tf_zero {pl : List (Int × Int)} {d : Int} (h : contains_doc pl d = false) :
    term_tf_for_doc pl d = 0 := by
  induction pl with
  | nil => rfl
  | cons p rest ih =>
    simp only [contains_doc, List.any_cons, Bool.or_eq_false_iff, decide_eq_false_iff_not] at h
    rw [term_tf_for_doc, if_neg h.1]
    exact ih (by simpa [contains_doc] using h.2)

lemma sum_map_ite {α : Type} (p : α → Bool) (f : α → ℚ) (l : List α) :
    (l.map (fun t => if p t then f t else 0)).sum = ((l.filter p).map f).sum := by
  induction l with
  | nil => rfl
  | cons a l ih =>
    by_cases hp : p a
    · simp [hp, ih]
    · simp [hp, ih]

lemma foldl_add_contrib (g : ℚ → List Char → ℚ) (c : List Char → ℚ)
    (hg : ∀ acc t, g acc t = acc + c t) :
    ∀ (l : List (List Char)) (a : ℚ), l.foldl g a = a + (l.map c).sum := by
  intro l
  induction l with
  | nil => intro a; simp
  | cons t l ih =>
    intro a
    rw [List.foldl_cons, hg, ih]
    simp [add_assoc]

lemma findTerm_mem {inv : List (List Char × List (Int × Int))} {t : List Char}
    {pl : List (Int × Int)} (h : findTerm inv t = some pl) : ∃ k, (k, pl) ∈ inv := by
  induction inv with
  | nil => simp [findTerm] at h
  | cons p rest ih =>
    obtain ⟨k, v⟩ := p
    rw [findTerm] at h
    by_cases hk : k = t
    · rw [if_pos hk] at h
      exact ⟨k, by simp [Option.some_inj.mp h]⟩
    · rw [if_neg hk] at h
      obtain ⟨k2, hm⟩ := ih h
      exact ⟨k2, by simp [hm]⟩

/-- C4: for an in-range document of an index whose term frequencies are
all at least 1, `compute_doc_score` equals the spec's formula: the sum
over query terms whose posting list contains the document of
`(1 + ln tf) * (ln((N+1)/(df+1)) + 1)` plus the `0.35`/`0.15` title/URL
substring bonuses, normalised by `sqrt(length)` when the stored length is
positive; `N` counts all document slots (holes included), `df` is the
posting-list length, `tf` is found by linear search.  Proven for every
interpretation `lg`, `sq` of `log`, `sqrt`. -/
theorem compute_doc_score_spec (lg sq : ℚ → ℚ) (idx : SIndex) (d : Int)
    (terms : List (List Char))
    (hd : 0 ≤ d ∧ d < (idx.urls.length : Int))
    (htf : ∀ p ∈ idx.inv, ∀ q ∈ p.2, 1 ≤ q.2) :
    compute_doc_score lg sq idx d terms = spec_score lg sq idx d terms := by
  have hguard : ¬ (d < 0 ∨ (idx.urls.length : Int) ≤ d) := by
    push_neg; exact ⟨hd.1, hd.2⟩
  have hstep : ∀ (acc : ℚ) (t : List Char),
      scoreStep lg idx d ((idx.urls.length : ℚ))
        (to_lower_ascii (idx.titles.getD d.toNat []))
        (to_lower_ascii (idx.urls.getD d.toNat [])) acc t =
      acc + (if termHasDoc idx d t then
        spec_term_contrib lg idx d ((idx.urls.length : ℚ))
          (to_lower_ascii (idx.titles.getD d.toNat []))
          (to_lower_ascii (idx.urls.getD d.toNat [])) t else 0) := by
    intro acc t
    rw [scoreStep, termHasDoc, spec_term_contrib]
    cases hft : findTerm idx.inv t with
    | none => simp
    | some pl =>
      simp only []
      cases hcd : contains_doc pl d with
      | false =>
        rw [term_tf_zero hcd]
        simp
      | true =>
        obtain ⟨k, hk⟩ := findTerm_mem hft
        obtain ⟨q, hq, hq1, hq2⟩ := term_tf_mem hcd
        have h1 : 1 ≤ term_tf_for_doc pl d := by
          rw [hq2]; exact htf (k, pl) hk q hq
        rw [if_neg (by omega)]
        simp only [if_true]
        split_ifs <;> ring
  rw [compute_doc_score, if_neg hguard, spec_score]
  simp only []
  rw [foldl_add_contrib _ _ hstep terms 0, zero_add, sum_map_ite]
  by_cases hlen : d.toNat < idx.lens.length
  · simp only [hlen, true_and]
  · rw [List.getD_eq_default _ _ (le_of_not_lt hlen)]
    simp [hlen]

/-- Concrete index for the `compute_doc_score` witness. -/
def w4idx : SIndex :=
  ⟨[(("vault".toList), [(0, 2)])], [("u".toList)], [("v".toList)], [4]⟩

/-- Witness for `compute_doc_score_spec` at document 0 of a one-document
index, with `lg = 0` and `sq = 2` as sample interpretations of log/sqrt. -/
theorem compute_doc_score_spec_witness :
    ((0 : Int) ≤ 0 ∧ (0 : Int) < (w4idx.urls.length : Int)) ∧
      (∀ p ∈ w4idx.inv, ∀ q ∈ p.2, 1 ≤ q.2) ∧
      compute_doc_score (fun _ => 0) (fun _ => 2) w4idx 0 [("vault".toList)] =
        spec_score (fun _ => 0) (fun _ => 2) w4idx 0 [("vault".toList)] := by
  refine ⟨⟨le_refl 0, by decide⟩, by decide, ?_⟩
  exact compute_doc_score_spec (fun _ => 0) (fun _ => 2) w4idx 0 [("vault".toList)]
    ⟨le_refl 0, by decide⟩ (by decide)

/-! ## Selection sort and `SearchEngine::search` -/

/-- The comparison of the ranking loop in `SearchEngine::search`:
candidate `p` beats `q` when its score is higher, or scores tie and its
doc id is lower. -/
def better (p q : Int × ℚ) : Bool :=
  p.2 > q.2 ∨ (p.2 = q.2 ∧ p.1 < q.1)

/-- The inner scan of the selection sort: running best element `b` at
index `bi`, scanning `ys` from index `j`; returns the index of the
leftmost maximum. -/
def bestScan : List (Int × ℚ) → (Int × ℚ) → Nat → Nat → Nat
  | [], _, bi, _ => bi
  | y :: ys, b, bi, j => if better y b then bestScan ys y j (j + 1) else bestScan ys b bi (j + 1)

/-- The selection sort of `SearchEngine::search` on (doc id, score) pairs:
find the leftmost best index `m` among positions `i..n`, swap positions
`i` and `m`, recurse. -/
def selSort : List (Int × ℚ) → List (Int × ℚ)
  | [] => []
  | x :: xs =>
    let m := bestScan xs x 0 1
    ((x :: xs).getD m x) :: selSort (((x :: xs).set m x).tail)
termination_by l => l.length
decreasing_by simp [List.length_set]

/-- Proof-side companion of `bestScan` returning the best element. -/
def bestElem : List (Int × ℚ) → (Int × ℚ) → (Int × ℚ)
  | [], b => b
  | y :: ys, b => if better y b then bestElem ys y else bestElem ys b

lemma better_trans {p q r : Int × ℚ} (h1 : better p q) (h2 : better q r) : better p r := by
  simp only [better, Bool.or_eq_true, decide_eq_true_eq, Bool.and_eq_true] at *
  rcases h1 with h1 | ⟨h1, h1d⟩ <;> rcases h2 with h2 | ⟨h2, h2d⟩
  · exact Or.inl (lt_trans h2 h1)
  · exact Or.inl (h2 ▸ h1)
  · exact Or.inl (h1 ▸ h2)
  · exact Or.inr ⟨h1.trans h2, by omega⟩

lemma better_irrefl (p : Int × ℚ) : ¬ better p p := by
  simp [better]

lemma better_cotrans {p r : Int × ℚ} (h : better p r) (q : Int × ℚ) :
    better p q ∨ better q r := by
  simp only [better, Bool.or_eq_true, decide_eq_true_eq, Bool.and_eq_true] at *
  rcases h with h | ⟨h, hd⟩
  · rcases lt_trichotomy q.2 p.2 with h2 | h2 | h2
    · exact Or.inl (Or.inl h2)
    · exact Or.inr (Or.inl (by rw [h2]; exact h))
    · exact Or.inr (Or.inl (lt_trans h h2))
  · rcases lt_trichotomy q.2 p.2 with h2 | h2 | h2
    · exact Or.inl (Or.inl h2)
    · rcases lt_trichotomy p.1 q.1 with h3 | h3 | h3
      · exact Or.inl (Or.inr ⟨h2.symm, h3⟩)
      · exact Or.inr (Or.inr ⟨h2.trans h, by omega⟩)
      · exact Or.inr (Or.inr ⟨h2.trans h, by omega⟩)
    · exact Or.inr (Or.inl (by rw [← h]; exact h2))

lemma bestElem_max : ∀ (ys : List (Int × ℚ)) (b : Int × ℚ),
    (∀ z ∈ ys, ¬ better z (bestElem ys b)) ∧ ¬ better b (bestElem ys b) := by
  intro ys
  induction ys with
  | nil => intro b; exact ⟨by simp, better_irrefl b⟩
  | cons y ys ih =>
    intro b
    by_cases hby : better y b
    · rw [bestElem, if_pos hby]
      refine ⟨?_, ?_⟩
      · intro z hz
        rcases List.mem_cons.mp hz with hz1 | hz
        · rw [hz1]; exact (ih y).2
        · exact (ih y).1 z hz
      · intro hbe
        rcases better_cotrans hbe y with h1 | h1
        · exact better_irrefl b (better_trans h1 hby)
        · exact (ih y).2 h1
    · rw [bestElem, if_neg hby]
      refine ⟨?_, (ih b).2⟩
      intro z hz
      rcases List.mem_cons.mp hz with hz1 | hz
      · rw [hz1]
        intro hze
        rcases better_cotrans hze b with h1 | h1
        · exact hby h1
        · exact (ih b).2 h1
      · exact (ih b).1 z hz

lemma bestScan_lt : ∀ (ys : List (Int × ℚ)) (b : Int × ℚ) (bi j : Nat),
    bi < j → bestScan ys b bi j < j + ys.length := by
  intro ys
  induction ys with
  | nil => intro b bi j h; rw [bestScan]; omega
  | cons y ys ih =>
    intro b bi j h
    rw [bestScan]
    by_cases hby : better y b
    · rw [if_pos hby]
      have := ih y j (j + 1) (by omega)
      simpa [Nat.add_comm, Nat.add_assoc, Nat.add_left_comm] using this
    · rw [if_neg hby]
      have := ih b bi (j + 1) (by omega)
      simpa [Nat.add_comm, Nat.add_assoc, Nat.add_left_comm] using this

lemma bestScan_getD (d : Int × ℚ) :
    ∀ (ys : List (Int × ℚ)) (l : List (Int × ℚ)) (b : Int × ℚ) (bi j : Nat),
      ys = l.drop j → l.getD bi d = b → bi < j →
      l.getD (bestScan ys b bi j) d = bestElem ys b := by
  intro ys
  induction ys with
  | nil => intro l b bi j _ hb _; rw [bestScan, bestElem]; exact hb
  | cons y ys ih =>
    intro l b bi j hdrop hb hbij
    have hj : l.getD j d = y := by
      have h0 : l[j]? = some y := by
        have := List.getElem?_drop l j 0
        rw [← hdrop] at this
        simpa using this.symm
      simp [List.getD, h0]
    have hys : ys = l.drop (j + 1) := by
      have h1 : List.drop 1 (List.drop j l) = List.drop (j + 1) l := List.drop_drop 1 j l
      rw [← hdrop] at h1
      simpa using h1
    rw [bestScan, bestElem]
    by_cases hby : better y b
    · rw [if_pos hby, if_pos hby]
      exact ih l y j (j + 1) hys hj (by omega)
    · rw [if_neg hby, if_neg hby]
      exact ih l b bi (j + 1) hys hb (by omega)

lemma swap_perm (d : Int × ℚ) :
    ∀ (t : List (Int × ℚ)) (k : Nat) (a : Int × ℚ), k < t.length →
      (a :: t).Perm (t.getD k d :: t.set k a) := by
  intro t
  induction t with
  | nil => intro k a hk; simp at hk
  | cons y ys ih =>
    intro k a hk
    cases k with
    | zero =>
      simpa using List.Perm.swap y a ys
    | succ k =>
      have hk' : k < ys.length := by simpa using hk
      have h1 : (a :: y :: ys).Perm (y :: a :: ys) := List.Perm.swap y a ys
      have h2 : (y :: a :: ys).Perm (y :: (ys.getD k d :: ys.set k a)) := (ih k a hk').cons y
      have h3 : (y :: ys.getD k d :: ys.set k a).Perm (ys.getD k d :: y :: ys.set k a) :=
        List.Perm.swap (ys.getD k d) y (ys.set k a)
      simpa using (h1.trans h2).trans h3

lemma selSort_cons (x : Int × ℚ) (xs : List (Int × ℚ)) :
    selSort (x :: xs) =
      ((x :: xs).getD (bestScan xs x 0 1) x) ::
        selSort (((x :: xs).set (bestScan xs x 0 1) x).tail) := by
  rw [selSort]

lemma selSort_perm : ∀ l : List (Int × ℚ), (selSort l).Perm l := by
  intro l
  induction l using selSort.induct with
  | case1 => simp [selSort]
  | case2 x xs m ihrec =>
    have hm0 : m = bestScan xs x 0 1 := rfl
    have hmlt : m < xs.length + 1 := by
      have h1 := bestScan_lt xs x 0 1 (by omega)
      omega
    clear_value m
    rw [selSort_cons, ← hm0]
    cases m with
    | zero =>
      simp only [List.getD_cons_zero, List.set_cons_zero, List.tail_cons] at ihrec ⊢
      exact ihrec.cons x
    | succ k =>
      simp only [List.getD_cons_succ, List.set_cons_succ, List.tail_cons] at ihrec ⊢
      have hm : k < xs.length := by omega
      exact (ihrec.cons (xs.getD k x)).trans (swap_perm x xs k x hm).symm

lemma selSort_sorted : ∀ l : List (Int × ℚ),
    List.Pairwise (fun p q => ¬ better q p) (selSort l) := by
  intro l
  induction l using selSort.induct with
  | case1 => simp [selSort]
  | case2 x xs m ihrec =>
    have hm0 : m = bestScan xs x 0 1 := rfl
    have hE : (x :: xs).getD m x = bestElem xs x := by
      rw [hm0]
      exact bestScan_getD x xs (x :: xs) x 0 1 rfl rfl (by omega)
    have hmlt : m < xs.length + 1 := by
      have h1 := bestScan_lt xs x 0 1 (by omega)
      omega
    have hmax := bestElem_max xs x
    clear_value m
    rw [selSort_cons, ← hm0]
    have hperm : (x :: xs).Perm ((x :: xs).getD m x :: ((x :: xs).set m x).tail) := by
      cases m with
      | zero =>
        simp only [List.getD_cons_zero, List.set_cons_zero, List.tail_cons]
        exact List.Perm.refl (x :: xs)
      | succ k =>
        simp only [List.getD_cons_succ, List.set_cons_succ, List.tail_cons]
        exact swap_perm x xs k x (by omega)
    refine List.pairwise_cons.mpr ⟨?_, ihrec⟩
    intro z hz
    have hz1 : z ∈ ((x :: xs).set m x).tail := ((selSort_perm _).mem_iff).mp hz
    have hz2 : z ∈ x :: xs := hperm.mem_iff.mpr (List.mem_cons.mpr (Or.inr hz1))
    rw [hE]
    rcases List.mem_cons.mp hz2 with hz3 | hz3
    · rw [hz3]; exact hmax.2
    · exact hmax.1 z hz3

/-- `SearchResult = {doc_id, url, title}`. -/
structure SearchResult where
  doc_id : Int
  url : List Char
  title : List Char
deriving Repr, DecidableEq

/-- `SearchEngine::search`: lex and normalize the query (paren isolation,
whitespace split, `normalize_query_token`, drop empties), early-return on
an empty token list, convert to RPN, evaluate, score every boolean
candidate, selection-sort by (score desc, doc id asc), and return the
in-range entries of the first 100 sorted candidates together with the
pre-truncation candidate count. -/
def search (lg sq : ℚ → ℚ) (idx : SIndex) (q : List Char) :
    List SearchResult × Nat :=
  let qtokens := queryTokens q
  if qtokens = [] then ([], 0)
  else
    let rpn := to_rpn qtokens
    let doc_ids := eval_rpn idx rpn
    let total := doc_ids.length
    let terms := extract_query_terms qtokens
    let pairs := doc_ids.map (fun d0 => (d0, compute_doc_score lg sq idx d0 terms))
    let sorted := selSort pairs
    let results := ((sorted.take 100).filter
      (fun p => 0 ≤ p.1 ∧ p.1 < (idx.urls.length : Int))).map
      (fun p => SearchResult.mk p.1 (idx.urls.getD p.1.toNat [])
        (idx.titles.getD p.1.toNat []))
    (results, total)

/-- The boolean candidate list `search` ranks: empty for an empty token
list, otherwise the RPN evaluation of the lexed query. -/
def searchCandidates (idx : SIndex) (q : List Char) : List Int :=
  if queryTokens q = [] then [] else eval_rpn idx (to_rpn (queryTokens q))

/-- C7: `search` reports the pre-truncation boolean candidate count,
returns at most 100 results, and the returned results are ordered by
computed score descending with ties broken by doc id ascending. -/
theorem search_ranking (lg sq : ℚ → ℚ) (idx : SIndex) (q : List Char) :
    (search lg sq idx q).2 = (searchCandidates idx q).length ∧
    (search lg sq idx q).1.length ≤ 100 ∧
    List.Pairwise (fun r1 r2 : SearchResult =>
      compute_doc_score lg sq idx r2.doc_id (extract_query_terms (queryTokens q)) <
        compute_doc_score lg sq idx r1.doc_id (extract_query_terms (queryTokens q)) ∨
      (compute_doc_score lg sq idx r1.doc_id (extract_query_terms (queryTokens q)) =
        compute_doc_score lg sq idx r2.doc_id (extract_query_terms (queryTokens q)) ∧
        r1.doc_id ≤ r2.doc_id)) (search lg sq idx q).1 := by
  by_cases hq : queryTokens q = []
  · rw [search, if_pos hq, searchCandidates, if_pos hq]
    exact ⟨rfl, by simp, by simp⟩
  · rw [search, if_neg hq, searchCandidates, if_neg hq]
    simp only []
    set terms := extract_query_terms (queryTokens q) with hterms
    set doc_ids := eval_rpn idx (to_rpn (queryTokens q)) with hdoc
    set pairs := doc_ids.map (fun d0 => (d0, compute_doc_score lg sq idx d0 terms))
      with hpairs
    set fl := ((selSort pairs).take 100).filter
      (fun p => 0 ≤ p.1 ∧ p.1 < (idx.urls.length : Int)) with hfl
    refine ⟨by simp [hpairs], ?_, ?_⟩
    · have h1 : fl.length ≤ ((selSort pairs).take 100).length :=
        List.length_filter_le _ _
      have h2 : ((selSort pairs).take 100).length ≤ 100 := by
        rw [List.length_take]; omega
      simpa using le_trans h1 h2
    · have hmemScore : ∀ p ∈ fl, p.2 = compute_doc_score lg sq idx p.1 terms := by
        intro p hp
        have hp1 : p ∈ selSort pairs :=
          ((List.filter_sublist _).trans (List.take_sublist _ _)).subset hp
        have hp2 : p ∈ pairs := (selSort_perm pairs).mem_iff.mp hp1
        obtain ⟨d0, _, rfl⟩ := List.mem_map.mp hp2
        rfl
      have hsor : List.Pairwise (fun p q : Int × ℚ => ¬ better q p) fl :=
        List.Pairwise.sublist ((List.filter_sublist _).trans (List.take_sublist _ _))
          (selSort_sorted pairs)
      rw [List.pairwise_map]
      refine List.Pairwise.imp_of_mem ?_ hsor
      intro p p' hp hp' hb
      dsimp only
      simp only [better, Bool.or_eq_true, decide_eq_true_eq, Bool.and_eq_true,
        not_or, not_and] at hb
      rw [hmemScore p hp, hmemScore p' hp'] at hb
      obtain ⟨hle, heq⟩ := hb
      rcases lt_or_eq_of_le (le_of_not_lt hle) with h1 | h1
      · exact Or.inl h1
      · refine Or.inr ⟨h1.symm, ?_⟩
        have := heq h1
        omega

/-- C10: every returned `SearchResult` names an in-range document slot and
carries the stored URL and title of that slot; the reported total counts
all boolean candidates, in-range or not (out-of-range candidates are
filtered out of the returned list only). -/
theorem search_results_in_range (lg sq : ℚ → ℚ) (idx : SIndex) (q : List Char) :
    (∀ r ∈ (search lg sq idx q).1,
      0 ≤ r.doc_id ∧ r.doc_id < (idx.urls.length : Int) ∧
      r.url = idx.urls.getD r.doc_id.toNat [] ∧
      r.title = idx.titles.getD r.doc_id.toNat []) ∧
    (search lg sq idx q).2 = (searchCandidates idx q).length := by
  by_cases hq : queryTokens q = []
  · rw [search, if_pos hq, searchCandidates, if_pos hq]
    refine ⟨by simp, by simp⟩
  · rw [search, if_neg hq, searchCandidates, if_neg hq]
    simp only []
    refine ⟨?_, by simp⟩
    intro r hr
    obtain ⟨p, hp, rfl⟩ := List.mem_map.mp hr
    have hp2 := (List.mem_filter.mp hp).2
    simp only [decide_eq_true_eq] at hp2
    exact ⟨hp2.1, hp2.2, rfl, rfl⟩

/-! ## Index builder (`IndexBuilder`, index_builder.h / part_003) -/

/-- Tab and newline characters. -/
def tabc : Char := Char.ofNat 9

def nlc : Char := Char.ofNat 10

/-- In-memory state of `IndexBuilder`: the inverted index (association
list mirroring the hash map; new keys are appended, existing keys are
updated in place) and the three parallel document arrays. -/
structure Builder where
  inv : List (List Char × List (Nat × Nat))
  urls : List (List Char)
  titles : List (List Char)
  lens : List Nat

def emptyBuilder : Builder := ⟨[], [], [], []⟩

/-- Generic association-list lookup (`HashMap::find`). -/
def findAssoc {β : Type} : List (List Char × β) → List Char → Option β
  | [], _ => none
  | (k, v) :: rest, t => if k = t then some v else findAssoc rest t

/-- Generic association-list insert (`HashMap::insert`): update the
existing key in place, else append. -/
def insertAssoc {β : Type} : List (List Char × β) → List Char → β → List (List Char × β)
  | [], k, v => [(k, v)]
  | (k0, v0) :: rest, k, v =>
    if k0 = k then (k0, v) :: rest else (k0, v0) :: insertAssoc rest k v

/-- `while (doc_urls_.size() <= doc_id) push_back(...)`: pad a list with a
default value until index `n` exists. -/
def padTo {α : Type} (l : List α) (n : Nat) (d : α) : List α :=
  l ++ List.replicate (n + 1 - l.length) d

/-- The per-token step of `IndexBuilder::add_document`: stem, skip empty
stems, bump the per-document frequency map. -/
def tfStep (acc : List (List Char × Nat)) (tok : List Char) : List (List Char × Nat) :=
  let s := stem tok
  if s = [] then acc
  else
    match findAssoc acc s with
    | some c => insertAssoc acc s (c + 1)
    | none => insertAssoc acc s 1

/-- The per-stem step of `IndexBuilder::add_document`: append one
`(doc_id, tf)` posting to the stem's list (creating it if absent). -/
def postStep (doc_id : Nat) (acc : List (List Char × List (Nat × Nat)))
    (p : List Char × Nat) : List (List Char × List (Nat × Nat)) :=
  match findAssoc acc p.1 with
  | some pl => insertAssoc acc p.1 (pl ++ [(doc_id, p.2)])
  | none => insertAssoc acc p.1 [(doc_id, p.2)]

/-- `IndexBuilder::add_document`: pad the document arrays, record URL,
title and surface-token count, build the per-document `stem -> tf` map
(skipping empty stems), and append one `(doc_id, tf)` posting per stem. -/
def add_document (b : Builder) (doc_id : Nat) (url title text : List Char) : Builder :=
  let urls := (padTo b.urls doc_id []).set doc_id url
  let titles := (padTo b.titles doc_id []).set doc_id title
  let tokens := tokenize text
  let lens := (padTo b.lens doc_id 0).set doc_id tokens.length
  let term_freqs := tokens.foldl tfStep []
  let inv := term_freqs.foldl (postStep doc_id) b.inv
  ⟨inv, urls, titles, lens⟩

/-- One input record of a build. -/
structure DocRec where
  doc_id : Nat
  url : List Char
  title : List Char
  text : List Char

/-- A whole build: fold `add_document` over a record list. -/
def buildDocs (docs : List DocRec) : Builder :=
  docs.foldl (fun b r => add_document b r.doc_id r.url r.title r.text) emptyBuilder

/-! ### On-disk index (`IndexBuilder::save_index` / `SearchEngine::load_index`)

`vocabulary.txt` and `documents.txt` are modelled as lists of lines (the
writer emits one `\n`-terminated line per record; a URL or title that
itself contains `\n` would break this framing, which the round-trip
hypotheses below exclude).  `index.bin` is the flat sequence of int32
values (the fixed 4-byte little/host-endian framing is bijective, so the
byte level adds nothing).  `doc_lengths.txt` is the sequence of integers
in the file. -/

structure SavedIndex where
  vocab : List (List Char)
  bin : List Int
  docs : List (List Char)
  lens : List Int

/-- Decimal digits of a natural number (what `operator<<` prints). -/
def natToDigits (n : Nat) : List Char :=
  if n < 10 then [Char.ofNat (48 + n)]
  else natToDigits (n / 10) ++ [Char.ofNat (48 + n % 10)]

/-- `IndexBuilder::save_index`. -/
def save_index (b : Builder) : SavedIndex :=
  { vocab := b.inv.enum.map
      (fun e => natToDigits e.1 ++ ' ' :: e.2.1 ++ ' ' :: natToDigits e.2.2.length)
    bin := (b.inv.map
      (fun e => Int.ofNat e.2.length ::
        (e.2.map (fun p => [Int.ofNat p.1, Int.ofNat p.2])).flatten)).flatten
    docs := (List.range b.urls.length).map
      (fun i => natToDigits i ++ tabc :: b.urls.getD i [] ++ tabc :: b.titles.getD i [])
    lens := b.lens.map Int.ofNat }

/-- Value of a digit string (how `operator>>` accumulates digits). -/
def digitsToNat (ds : List Char) : Nat :=
  ds.foldl (fun a c => a * 10 + (c.toNat - 48)) 0

/-- `operator>>` into an `int`: skip whitespace, optional sign, digits;
`none` models stream failure (no digit). -/
def readInt (s : List Char) : Option (Int × List Char) :=
  let s1 := s.dropWhile (fun c => isSpc c)
  let neg := s1.head? = some '-'
  let s2 := if s1.head? = some '-' ∨ s1.head? = some '+' then s1.tail else s1
  let ds := s2.takeWhile (fun c => c.isDigit)
  if ds = [] then none
  else
    let v : Int := Int.ofNat (digitsToNat ds)
    some (if neg then -v else v, s2.dropWhile (fun c => c.isDigit))

/-- `operator>>` into a `std::string`: skip whitespace, take until
whitespace. -/
def readToken (s : List Char) : List Char × List Char :=
  let s1 := s.dropWhile (fun c => isSpc c)
  (s1.takeWhile (fun c => ¬ isSpc c), s1.dropWhile (fun c => ¬ isSpc c))

/-- `std::getline(iss, out, '\t')`: the field up to the first tab, and
the remainder after the consumed delimiter. -/
def getlineTab (s : List Char) : List Char × List Char :=
  (s.takeWhile (fun c => c ≠ tabc),
    match s.dropWhile (fun c => c ≠ tabc) with
    | [] => []
    | _ :: r => r)

/-- Read `n` `(doc_id, tf)` pairs from the flat int stream.  Reading past
the end of the file leaves the C++ variables unread; the zero filler is
unreachable for writer-produced streams. -/
def takePairs : Nat → List Int → List (Int × Int) × List Int
  | 0, l => ([], l)
  | n + 1, [] => (List.replicate (n + 1) (0, 0), [])
  | n + 1, [a] => ((a, 0) :: List.replicate n (0, 0), [])
  | n + 1, a :: b :: r =>
    let p := takePairs n r
    ((a, b) :: p.1, p.2)

/-- One vocabulary line of `SearchEngine::load_index`: parse (and
discard) `term_id`, read the term, then consume `actual_size` and the
posting pairs from the binary stream and insert the list under the term. -/
def loadVocabStep (acc : List (List Char × List (Int × Int)) × List Int)
    (line : List Char) : List (List Char × List (Int × Int)) × List Int :=
  let rest1 := match readInt line with | some p => p.2 | none => line
  let term := (readToken rest1).1
  match acc.2 with
  | [] => (insertAssoc acc.1 term [], [])
  | c :: r =>
    let p := takePairs c.toNat r
    (insertAssoc acc.1 term p.1, p.2)

/-- One `documents.txt` line of `SearchEngine::load_index`: parse the
doc id, skip to the first tab, read the URL up to the next tab and the
title to the end of the line, pad the three arrays and assign URL/title.
(A negative doc id would make the C++ `size_t` cast loop forever; that
case is unreachable for writer-produced files and modelled as a skip.) -/
def loadDocStep (acc : List (List Char) × List (List Char) × List Int)
    (line : List Char) : List (List Char) × List (List Char) × List Int :=
  match readInt line with
  | none => ((padTo acc.1 0 []).set 0 [], (padTo acc.2.1 0 []).set 0 [], padTo acc.2.2 0 0)
  | some (docId, rest) =>
    let rest2 := (getlineTab rest).2
    let url := (getlineTab rest2).1
    let title := (getlineTab rest2).2
    if docId < 0 then acc
    else
      let n := docId.toNat
      ((padTo acc.1 n []).set n url, (padTo acc.2.1 n []).set n title, padTo acc.2.2 n 0)

/-- `SearchEngine::load_index` over the four modelled files. -/
def load_index (s : SavedIndex) : SIndex :=
  let vres := s.vocab.foldl loadVocabStep ([], s.bin)
  let dres := s.docs.foldl loadDocStep ([], [], [])
  let lres := s.lens.foldl
    (fun (acc : List Int × Nat) v => ((padTo acc.1 acc.2 0).set acc.2 v, acc.2 + 1))
    (dres.2.2, 0)
  ⟨vres.1, dres.1, dres.2.1, lres.1⟩

lemma takePairs_length_le : ∀ (n : Nat) (r : List Int), (takePairs n r).2.length ≤ r.length := by
  intro n
  induction n with
  | zero => intro r; simp [takePairs]
  | succ k ih =>
    intro r
    match r with
    | [] => simp [takePairs]
    | [a] => simp [takePairs]
    | a :: b :: r2 =>
      rw [takePairs]
      exact le_trans (ih r2) (by simp; omega)

/-- Decode `index.bin` into its size-prefixed posting lists (to state the
saved-index invariant independently of the text files). -/
def decodeBin : List Int → List (List (Int × Int))
  | [] => []
  | c :: r =>
    let p := takePairs c.toNat r
    p.1 :: decodeBin p.2
termination_by l => l.length
decreasing_by
  have h := takePairs_length_le c.toNat r
  simp only [List.length_cons]
  omega

/-! ## C2: the saved-index posting-list invariant -/

lemma takePairs_encoded (rest : List Int) :
    ∀ pl : List (Nat × Nat),
      takePairs pl.length ((pl.map (fun p => [Int.ofNat p.1, Int.ofNat p.2])).flatten ++ rest) =
        (pl.map (fun p => (Int.ofNat p.1, Int.ofNat p.2)), rest) := by
  intro pl
  induction pl with
  | nil => simp [takePairs]
  | cons p pl ih =>
    simp only [List.map_cons, List.flatten_cons, List.length_cons, List.cons_append,
      List.append_assoc]
    rw [takePairs]
    simp only [List.nil_append]
    rw [ih]

lemma decodeBin_encode :
    ∀ entries : List (List Char × List (Nat × Nat)),
      decodeBin ((entries.map
          (fun e => Int.ofNat e.2.length ::
            (e.2.map (fun p => [Int.ofNat p.1, Int.ofNat p.2])).flatten)).flatten) =
        entries.map (fun e => e.2.map (fun p => (Int.ofNat p.1, Int.ofNat p.2))) := by
  intro entries
  induction entries with
  | nil =>
    simp only [List.map_nil, List.flatten_nil]
    rw [decodeBin]
  | cons e entries ih =>
    simp only [List.map_cons, List.flatten_cons, List.cons_append]
    rw [decodeBin]
    rw [show (Int.ofNat e.2.length).toNat = e.2.length from rfl]
    rw [takePairs_encoded]
    dsimp only
    rw [ih]

lemma findAssoc_mem {β : Type} {l : List (List Char × β)} {k : List Char} {v : β}
    (h : findAssoc l k = some v) : (k, v) ∈ l := by
  induction l with
  | nil => simp [findAssoc] at h
  | cons p rest ih =>
    obtain ⟨k0, v0⟩ := p
    rw [findAssoc] at h
    by_cases hk : k0 = k
    · rw [if_pos hk] at h
      subst hk
      simp [Option.some_inj.mp h]
    · rw [if_neg hk] at h
      simp [ih h]

lemma mem_insertAssoc {β : Type} {l : List (List Char × β)} {k : List Char} {v : β} :
    ∀ p ∈ insertAssoc l k v, p = (k, v) ∨ p ∈ l := by
  induction l with
  | nil => intro p hp; simpa [insertAssoc] using hp
  | cons q rest ih =>
    obtain ⟨k0, v0⟩ := q
    intro p hp
    rw [insertAssoc] at hp
    by_cases hk : k0 = k
    · rw [if_pos hk] at hp
      subst hk
      rcases List.mem_cons.mp hp with h1 | h1
      · exact Or.inl h1
      · exact Or.inr (by simp [h1])
    · rw [if_neg hk] at hp
      rcases List.mem_cons.mp hp with h1 | h1
      · exact Or.inr (by simp [h1])
      · rcases ih p h1 with h2 | h2
        · exact Or.inl h2
        · exact Or.inr (by simp [h2])

lemma findAssoc_insertAssoc_ne {β : Type} {l : List (List Char × β)} {k k' : List Char}
    {v : β} (hne : k' ≠ k) : findAssoc (insertAssoc l k v) k' = findAssoc l k' := by
  induction l with
  | nil =>
    simp only [insertAssoc, findAssoc]
    rw [if_neg (fun h => hne h.symm)]
  | cons q rest ih =>
    obtain ⟨k0, v0⟩ := q
    rw [insertAssoc]
    by_cases hk : k0 = k
    · rw [if_pos hk]
      rw [findAssoc, findAssoc]
      subst hk
      rw [if_neg (fun h => hne h.symm), if_neg (fun h => hne h.symm)]
    · rw [if_neg hk, findAssoc, findAssoc]
      by_cases h0 : k0 = k'
      · rw [if_pos h0, if_pos h0]
      · rw [if_neg h0, if_neg h0, ih]

/-- The per-document `stem -> tf` accumulation keeps every count at 1 or
more. -/
lemma tf_counts_ge_one (tokens : List (List Char)) :
    ∀ acc : List (List Char × Nat), (∀ p ∈ acc, 1 ≤ p.2) →
      ∀ p ∈ tokens.foldl tfStep acc, 1 ≤ p.2 := by
  induction tokens with
  | nil => intro acc hacc; simpa using hacc
  | cons tok tokens ih =>
    intro acc hacc
    rw [List.foldl_cons]
    apply ih
    rw [tfStep]
    by_cases hs : stem tok = []
    · simpa [hs] using hacc
    · simp only [hs, if_neg hs]
      cases hf : findAssoc acc (stem tok) with
      | none =>
        simp only []
        intro p hp
        rcases mem_insertAssoc p hp with h1 | h1
        · simp [h1]
        · exact hacc p h1
      | some c =>
        simp only []
        intro p hp
        rcases mem_insertAssoc p hp with h1 | h1
        · rw [h1]; omega
        · exact hacc p h1

/-- Keys of the inverted index (or of any association list). -/
def keysOf {β : Type} (l : List (List Char × β)) : List (List Char) :=
  l.map (fun p => p.1)

/-- Sorted-build invariant of the inverted index: every posting list is
strictly ascending, every tf is at least 1, and every doc id is below
`bound`. -/
def InvGood (inv : List (List Char × List (Nat × Nat))) (bound : Nat) : Prop :=
  ∀ e ∈ inv, List.Chain' (· < ·) (e.2.map Prod.fst) ∧
    (∀ p ∈ e.2, 1 ≤ p.2) ∧ (∀ p ∈ e.2, p.1 < bound)

lemma chain'_append_lt {l : List Nat} {d : Nat}
    (hc : List.Chain' (· < ·) l) (hlt : ∀ x ∈ l, x < d) :
    List.Chain' (· < ·) (l ++ [d]) := by
  apply List.Chain'.append hc (List.chain'_singleton d)
  intro x hx y hy
  have hy' : d = y := by simpa using hy
  subst hy'
  exact hlt x (List.mem_of_mem_getLast? hx)

lemma keysOf_insertAssoc {β : Type} (k : List Char) (v : β) :
    ∀ l : List (List Char × β),
      keysOf (insertAssoc l k v) = if k ∈ keysOf l then keysOf l else keysOf l ++ [k] := by
  intro l
  induction l with
  | nil =>
    simp only [keysOf, insertAssoc, List.map_nil, List.map_cons]
    rw [if_neg (List.not_mem_nil k)]
    rfl
  | cons q rest ih =>
    obtain ⟨k0, v0⟩ := q
    rw [insertAssoc]
    simp only [keysOf, List.map_cons] at ih ⊢
    by_cases hk : k0 = k
    · subst hk
      rw [if_pos (List.mem_cons_self k0 _)]
      simp
    · have hkk0 : ¬ k = k0 := fun h => hk (Eq.symm h)
      rw [if_neg hk]
      simp only [List.map_cons]
      rw [ih]
      by_cases hm : k ∈ rest.map (fun p => p.1)
      · rw [if_pos hm, if_pos (by simp [hm])]
      · rw [if_neg hm, if_neg (by simp [hm, hkk0])]
        simp

lemma nodup_keys_insertAssoc {β : Type} {l : List (List Char × β)} {k : List Char} {v : β}
    (h : (keysOf l).Nodup) : (keysOf (insertAssoc l k v)).Nodup := by
  rw [keysOf_insertAssoc]
  by_cases hm : k ∈ keysOf l
  · rwa [if_pos hm]
  · rw [if_neg hm]
    simp [List.nodup_append, h, hm]

/-- The per-document frequency map has no duplicate stems. -/
lemma tf_keys_nodup (tokens : List (List Char)) :
    ∀ acc : List (List Char × Nat), (keysOf acc).Nodup →
      (keysOf (tokens.foldl tfStep acc)).Nodup := by
  induction tokens with
  | nil => intro acc hacc; simpa using hacc
  | cons tok tokens ih =>
    intro acc hacc
    rw [List.foldl_cons]
    apply ih
    rw [tfStep]
    by_cases hs : stem tok = []
    · simpa [hs] using hacc
    · simp only [hs, if_neg hs]
      cases hf : findAssoc acc (stem tok) with
      | none => exact nodup_keys_insertAssoc hacc
      | some c => exact nodup_keys_insertAssoc hacc

lemma InvGood_mono {inv : List (List Char × List (Nat × Nat))} {b1 b2 : Nat}
    (h : InvGood inv b1) (hle : b1 ≤ b2) : InvGood inv b2 := by
  intro e he
  obtain ⟨h1, h2, h3⟩ := h e he
  exact ⟨h1, h2, fun p hp => lt_of_lt_of_le (h3 p hp) hle⟩

/-- Folding the posting-append step over a duplicate-free frequency map
with counts at least 1 preserves the sorted-build invariant, provided
every incoming list for a pending stem is bounded below `d`. -/
lemma postings_fold_good (d : Nat) :
    ∀ (tfs : List (List Char × Nat)) (acc : List (List Char × List (Nat × Nat))),
      (keysOf tfs).Nodup → (∀ p ∈ tfs, 1 ≤ p.2) →
      InvGood acc (d + 1) →
      (∀ k ∈ keysOf tfs, ∀ pl, findAssoc acc k = some pl → ∀ p ∈ pl, p.1 < d) →
      InvGood (tfs.foldl (postStep d) acc) (d + 1) := by
  intro tfs
  induction tfs with
  | nil => intro acc _ _ hg _; simpa using hg
  | cons q rest ih =>
    obtain ⟨k0, tf0⟩ := q
    intro acc hnd hge hg hsmall
    rw [List.foldl_cons]
    have hnd2 : (k0 :: keysOf rest).Nodup := hnd
    have hnd' : (keysOf rest).Nodup := hnd2.of_cons
    have hk0 : k0 ∉ keysOf rest := (List.nodup_cons.mp hnd2).1
    have hstep : InvGood (postStep d acc (k0, tf0)) (d + 1) := by
      rw [postStep]
      cases hf : findAssoc acc k0 with
      | some pl =>
        simp only []
        intro e he
        rcases mem_insertAssoc e he with h1 | h1
        · obtain ⟨hc, hge', hlt'⟩ := hg (k0, pl) (findAssoc_mem hf)
          have hpl_small : ∀ p ∈ pl, p.1 < d :=
            hsmall k0 (List.mem_cons_self k0 _) pl hf
          rw [h1]
          refine ⟨?_, ?_, ?_⟩
          · simp only [List.map_append, List.map_cons, List.map_nil]
            exact chain'_append_lt hc (fun x hx => by
              obtain ⟨p, hp, rfl⟩ := List.mem_map.mp hx
              exact hpl_small p hp)
          · intro p hp
            rcases List.mem_append.mp hp with h2 | h2
            · exact hge' p h2
            · simp only [List.mem_singleton] at h2
              rw [h2]
              exact hge (k0, tf0) (by simp)
          · intro p hp
            rcases List.mem_append.mp hp with h2 | h2
            · exact hlt' p h2
            · simp only [List.mem_singleton] at h2
              rw [h2]; omega
        · exact hg e h1
      | none =>
        simp only []
        intro e he
        rcases mem_insertAssoc e he with h1 | h1
        · rw [h1]
          refine ⟨by simp, ?_, ?_⟩
          · intro p hp
            simp only [List.mem_singleton] at hp
            rw [hp]
            exact hge (k0, tf0) (by simp)
          · intro p hp
            simp only [List.mem_singleton] at hp
            rw [hp]; omega
        · exact hg e h1
    apply ih (postStep d acc (k0, tf0)) hnd' (fun p hp => hge p (by simp [hp])) hstep
    intro k hk pl hfind
    have hne : k ≠ k0 := fun h => hk0 (h ▸ hk)
    rw [postStep] at hfind
    cases hf : findAssoc acc k0 with
    | some pl0 =>
      rw [hf] at hfind
      simp only [] at hfind
      rw [findAssoc_insertAssoc_ne hne] at hfind
      exact hsmall k (List.mem_cons.mpr (Or.inr hk)) pl hfind
    | none =>
      rw [hf] at hfind
      simp only [] at hfind
      rw [findAssoc_insertAssoc_ne hne] at hfind
      exact hsmall k (List.mem_cons.mpr (Or.inr hk)) pl hfind

/-- `add_document` with a doc id at or above the current bound keeps the
sorted-build invariant, with the bound advanced past the new doc id. -/
lemma add_document_InvGood {b : Builder} {bound d : Nat} (h : InvGood b.inv bound)
    (hbd : bound ≤ d) (url title text : List Char) :
    InvGood (add_document b d url title text).inv (d + 1) := by
  show InvGood (((tokenize text).foldl tfStep []).foldl (postStep d) b.inv) (d + 1)
  apply postings_fold_good
  · exact tf_keys_nodup (tokenize text) [] (by simp [keysOf])
  · exact tf_counts_ge_one (tokenize text) [] (by simp)
  · exact InvGood_mono h (by omega)
  · intro k _ pl hfind p hp
    have := (h _ (findAssoc_mem hfind)).2.2 p hp
    omega

/-- A build over strictly ascending doc ids keeps every posting list
strictly ascending with all counts at least 1. -/
lemma buildDocs_InvGood :
    ∀ (docs : List DocRec) (b : Builder) (bound : Nat),
      InvGood b.inv bound → (∀ r ∈ docs, bound ≤ r.doc_id) →
      List.Pairwise (· < ·) (docs.map DocRec.doc_id) →
      ∃ B, InvGood ((docs.foldl
        (fun b r => add_document b r.doc_id r.url r.title r.text) b).inv) B := by
  intro docs
  induction docs with
  | nil => intro b bound hg _ _; exact ⟨bound, hg⟩
  | cons r rest ih =>
    intro b bound hg hbd hpw
    rw [List.foldl_cons]
    rw [List.map_cons, List.pairwise_cons] at hpw
    refine ih _ (r.doc_id + 1) (add_document_InvGood hg (hbd r (by simp)) _ _ _) ?_ hpw.2
    intro r' hr'
    have : r.doc_id < r'.doc_id := hpw.1 r'.doc_id (List.mem_map.mpr ⟨r', hr', rfl⟩)
    omega

/-- C2, amended: when `add_document` is called with strictly increasing
doc ids, every posting list in the saved index (as decoded from
`index.bin`) is strictly ascending by doc id with every tf at least 1.
The unconditional claim — sorted saved lists regardless of call order —
is refuted by `save_sorted_cex`: `save_index` writes posting lists in
append order and never sorts. -/
theorem save_sorted (docs : List DocRec)
    (hsort : List.Pairwise (· < ·) (docs.map DocRec.doc_id)) :
    ∀ pl ∈ decodeBin (save_index (buildDocs docs)).bin,
      List.Chain' (· < ·) (pl.map Prod.fst) ∧ ∀ p ∈ pl, 1 ≤ p.2 := by
  obtain ⟨B, hB⟩ := buildDocs_InvGood docs emptyBuilder 0 (by intro e he; simp [emptyBuilder] at he) (by simp) hsort
  intro pl hpl
  rw [show (save_index (buildDocs docs)).bin =
    ((buildDocs docs).inv.map
      (fun e => Int.ofNat e.2.length ::
        (e.2.map (fun p => [Int.ofNat p.1, Int.ofNat p.2])).flatten)).flatten from rfl,
    decodeBin_encode] at hpl
  obtain ⟨e, he, rfl⟩ := List.mem_map.mp hpl
  obtain ⟨hc, hge, _⟩ := hB e he
  refine ⟨?_, ?_⟩
  · have h1 : (e.2.map (fun p => (Int.ofNat p.1, Int.ofNat p.2))).map Prod.fst =
        (e.2.map Prod.fst).map (fun n => Int.ofNat n) := by
      simp [List.map_map, Function.comp]
    rw [h1]
    exact List.chain'_map_of_chain' _ (by intro a b hab; exact Int.ofNat_lt.mpr hab) hc
  · intro p hp
    obtain ⟨q, hq, rfl⟩ := List.mem_map.mp hp
    have := hge q hq
    simp only [Int.ofNat_eq_natCast]
    omega

/-- Counterexample to C2 as stated: adding documents 1 then 0 (both
containing the token `aa`) and saving yields the posting list
`[(1,1),(0,1)]` for the term `aa` — not ascending. -/
theorem save_sorted_cex :
    ¬ ∀ pl ∈ decodeBin (save_index (buildDocs
        [⟨1, [], [], ("aa".toList)⟩, ⟨0, [], [], ("aa".toList)⟩])).bin,
      List.Chain' (· < ·) (pl.map Prod.fst) := by
  intro h
  have hbin : (save_index (buildDocs
      [⟨1, [], [], ("aa".toList)⟩, ⟨0, [], [], ("aa".toList)⟩])).bin =
      [2, 1, 1, 0, 1] := by decide
  have hd : decodeBin [2, 1, 1, 0, 1] = [[(1, 1), (0, 1)]] := by
    rw [decodeBin]
    rw [show takePairs (Int.toNat 2) [1, 1, 0, 1] = ([(1, 1), (0, 1)], []) from rfl]
    rw [decodeBin]
  have h2 := h [(1, 1), (0, 1)] (by rw [hbin, hd]; simp)
  exact absurd h2 (by simp [List.chain'_cons])

/-- Witness for `save_sorted` on an in-order two-document build. -/
theorem save_sorted_witness :
    List.Pairwise (· < ·) (([⟨0, [], [], ("aa".toList)⟩,
        ⟨1, [], [], ("aa bb".toList)⟩] : List DocRec).map DocRec.doc_id) ∧
      ∀ pl ∈ decodeBin (save_index (buildDocs
        [⟨0, [], [], ("aa".toList)⟩, ⟨1, [], [], ("aa bb".toList)⟩])).bin,
        List.Chain' (· < ·) (pl.map Prod.fst) ∧ ∀ p ∈ pl, 1 ≤ p.2 := by
  refine ⟨by decide, save_sorted _ (by decide)⟩

/-! ## C8: save/load round trip -/

lemma toNat_ofNat_digit {k : Nat} (hk : k < 10) : (Char.ofNat (48 + k)).toNat = 48 + k := by
  interval_cases k <;> decide

lemma isDigit_ofNat_digit {k : Nat} (hk : k < 10) : (Char.ofNat (48 + k)).isDigit = true := by
  interval_cases k <;> decide

lemma natToDigits_ne_nil (n : Nat) : natToDigits n ≠ [] := by
  rw [natToDigits]
  split <;> simp

lemma natToDigits_all_digit (n : Nat) : ∀ c ∈ natToDigits n, c.isDigit = true := by
  induction n using natToDigits.induct with
  | case1 n hn =>
    rw [natToDigits, if_pos hn]
    intro c hc
    simp only [List.mem_singleton] at hc
    rw [hc]
    exact isDigit_ofNat_digit hn
  | case2 n hn ih =>
    rw [natToDigits, if_neg hn]
    intro c hc
    rcases List.mem_append.mp hc with h1 | h1
    · exact ih c h1
    · simp only [List.mem_singleton] at h1
      rw [h1]
      exact isDigit_ofNat_digit (Nat.mod_lt n (by omega))

lemma isDigit_not_spc {c : Char} (h : c.isDigit = true) : isSpc c = false := by
  have h' : 48 ≤ c.toNat ∧ c.toNat ≤ 57 := by
    simpa [Char.isDigit, decide_eq_true_eq] using h
  have hne : ∀ d : Char, d.toNat < 48 → c ≠ d := fun d hd => ne_of_toNat_ne (by omega)
  simp only [isSpc, decide_eq_false_iff_not]
  push_neg
  exact ⟨hne _ (by decide), hne _ (by decide), hne _ (by decide), hne _ (by decide),
    hne _ (by decide), hne _ (by decide)⟩

lemma digitsToNat_natToDigits_aux :
    ∀ n, ∀ a : Nat, (natToDigits n).foldl (fun a c => a * 10 + (c.toNat - 48)) a =
      a * 10 ^ (natToDigits n).length + n := by
  intro n
  induction n using natToDigits.induct with
  | case1 n hn =>
    intro a
    rw [natToDigits, if_pos hn]
    simp [toNat_ofNat_digit hn]
  | case2 n hn ih =>
    intro a
    rw [natToDigits, if_neg hn]
    rw [List.foldl_append, ih]
    simp only [List.foldl_cons, List.foldl_nil, List.length_append, List.length_cons,
      List.length_nil]
    rw [toNat_ofNat_digit (Nat.mod_lt n (by omega))]
    rw [pow_succ]
    have hmod : 10 * (n / 10) + n % 10 = n := Nat.div_add_mod n 10
    ring_nf
    omega

lemma digitsToNat_natToDigits (n : Nat) : digitsToNat (natToDigits n) = n := by
  rw [digitsToNat, digitsToNat_natToDigits_aux]
  simp

lemma span_append {p : Char → Bool} :
    ∀ l r : List Char, (∀ c ∈ l, p c = true) → (∀ c, r.head? = some c → p c = false) →
      (l ++ r).takeWhile p = l ∧ (l ++ r).dropWhile p = r := by
  intro l
  induction l with
  | nil =>
    intro r _ hr
    cases r with
    | nil => simp
    | cons c r' =>
      have hc := hr c (by simp)
      simp [List.takeWhile_cons, List.dropWhile_cons, hc]
  | cons a l ih =>
    intro r hl hr
    have ha := hl a (by simp)
    obtain ⟨h1, h2⟩ := ih r (fun c hc => hl c (by simp [hc])) hr
    simp [List.takeWhile_cons, List.dropWhile_cons, ha, h1, h2]

/-- Reading an integer from printed digits followed by a non-digit,
non-space, non-sign remainder recovers the number and the remainder. -/
lemma readInt_natToDigits (n : Nat) (r : List Char)
    (hr : ∀ c, r.head? = some c → c.isDigit = false) :
    readInt (natToDigits n ++ r) = some (Int.ofNat n, r) := by
  have hall := natToDigits_all_digit n
  have hdrop : (natToDigits n ++ r).dropWhile (fun c => isSpc c) = natToDigits n ++ r := by
    obtain ⟨c, tl, hct⟩ := List.exists_cons_of_ne_nil (natToDigits_ne_nil n)
    rw [hct, List.cons_append, List.dropWhile_cons,
      if_neg (by simp [isDigit_not_spc (hall c (by rw [hct]; simp))])]
  have hhead : ∀ c, (natToDigits n ++ r).head? = some c → c.isDigit = true := by
    obtain ⟨c, tl, hct⟩ := List.exists_cons_of_ne_nil (natToDigits_ne_nil n)
    rw [hct, List.cons_append]
    intro c' hc'
    simp only [List.head?_cons, Option.some_inj] at hc'
    rw [← hc']
    exact hall c (by rw [hct]; simp)
  have hspan := span_append (natToDigits n) r hall hr
  rw [readInt]
  simp only [hdrop]
  have hne : ¬ ((natToDigits n ++ r).head? = some '-' ∨ (natToDigits n ++ r).head? = some '+') := by
    rintro (h1 | h1)
    · have := hhead _ h1; simp at this
    · have := hhead _ h1; simp at this
  rw [if_neg hne]
  rw [hspan.1, hspan.2]
  rw [if_neg (by simp [natToDigits_ne_nil n])]
  have hnegf : ¬ ((natToDigits n ++ r).head? = some '-') := fun h1 => hne (Or.inl h1)
  rw [digitsToNat_natToDigits]
  simp [hnegf]
  rintro (h1 | ⟨h2, -⟩)
  · obtain ⟨c, tl, hct⟩ := List.exists_cons_of_ne_nil (natToDigits_ne_nil n)
    rw [hct] at h1
    simp only [List.head?_cons, Option.some_inj] at h1
    have hd := hall c (by rw [hct]; simp)
    rw [h1] at hd
    simp at hd
  · exact absurd h2 (natToDigits_ne_nil n)

/-! ### Character provenance through the stemmer: every character of a
stem is either a character of the input token or a lowercase ASCII
letter (all suffix replacements are lowercase literals). -/

/-- Every character of the state's buffer comes from `w0` or is a
lowercase letter. -/
def WordOK (w0 : List Char) (st : StemSt) : Prop :=
  ∀ c ∈ st.word, c ∈ w0 ∨ c.isLower

lemma ends_snd_word (st : StemSt) (s : List Char) : ((ends st s).2).word = st.word := by
  rw [ends]
  split_ifs <;> rfl

lemma wordOK_of_word_eq {w0 : List Char} {st st' : StemSt} (h : WordOK w0 st)
    (he : st'.word = st.word) : WordOK w0 st' := by
  intro c hc
  rw [he] at hc
  exact h c hc

lemma ends_wordOK {w0 : List Char} {st : StemSt} (h : WordOK w0 st) (s : List Char) :
    WordOK w0 ((ends st s).2) :=
  wordOK_of_word_eq h (ends_snd_word st s)

lemma setTo_wordOK {w0 : List Char} {st : StemSt} {s : List Char} (h : WordOK w0 st)
    (hs : ∀ c ∈ s, c.isLower) : WordOK w0 (setTo st s) := by
  intro c hc
  simp only [setTo] at hc
  rcases List.mem_append.mp hc with h1 | h1
  · rcases List.mem_append.mp h1 with h2 | h2
    · exact h c (List.take_subset _ _ h2)
    · exact Or.inr (hs c h2)
  · exact h c (List.drop_subset _ _ h1)

lemma tryR_wordOK {w0 : List Char} {st : StemSt} (h : WordOK w0 st) {sfx repl : List Char}
    (hs : ∀ c ∈ repl, c.isLower) : WordOK w0 ((tryR st sfx repl).2) := by
  rw [tryR]
  have h2 := ends_wordOK h sfx
  split_ifs with h1 hm
  · exact setTo_wordOK h2 hs
  · exact h2
  · exact h2

lemma tryRs_wordOK {w0 : List Char} :
    ∀ (l : List (List Char × List Char)) (st : StemSt), WordOK w0 st →
      (∀ pr ∈ l, ∀ c ∈ pr.2, c.isLower) → WordOK w0 (tryRs st l) := by
  intro l
  induction l with
  | nil => intro st h _; exact h
  | cons pr rest ih =>
    intro st h hl
    rw [tryRs]
    have hp : WordOK w0 ((tryR st pr.1 pr.2).2) := tryR_wordOK h (hl pr (by simp))
    split_ifs with h1
    · exact hp
    · exact ih _ hp (fun q hq => hl q (by simp [hq]))

lemma sBranchDef_wordOK {w0 : List Char} {st : StemSt} (h : WordOK w0 st) :
    WordOK w0 (sBranchDef st) := by
  rw [sBranchDef]
  simp only []
  split_ifs with hs hp hi hn
  · exact wordOK_of_word_eq (ends_wordOK h _) rfl
  · exact setTo_wordOK (ends_wordOK (ends_wordOK h _) _) (by decide)
  · exact wordOK_of_word_eq (ends_wordOK (ends_wordOK h _) _) rfl
  · exact ends_wordOK (ends_wordOK h _) _
  · exact h

lemma step1abInner_wordOK {w0 : List Char} {st2 : StemSt} (h : WordOK w0 st2) :
    WordOK w0 (step1abInner st2) := by
  have hA : WordOK w0 ((ends st2 ("at".toList)).2) := ends_wordOK h _
  have hB : WordOK w0 ((ends (ends st2 ("at".toList)).2 ("bl".toList)).2) :=
    ends_wordOK hA _
  have hZ : WordOK w0 ((ends (ends (ends st2 ("at".toList)).2 ("bl".toList)).2
      ("iz".toList)).2) := ends_wordOK hB _
  rw [step1abInner]
  simp only []
  split_ifs
  · exact setTo_wordOK hA (by decide)
  · exact setTo_wordOK hB (by decide)
  · exact setTo_wordOK hZ (by decide)
  · exact hZ
  · exact wordOK_of_word_eq hZ rfl
  · exact setTo_wordOK hZ (by decide)
  · exact hZ

lemma step1abTail_wordOK {w0 : List Char} {st1 : StemSt} (h : WordOK w0 st1) :
    WordOK w0 (step1abTail st1) := by
  have hE : WordOK w0 ((ends st1 ("eed".toList)).2) := ends_wordOK h _
  have hB : WordOK w0 ((ends (ends st1 ("eed".toList)).2 ("ed".toList)).2) :=
    ends_wordOK hE _
  have hBG : WordOK w0 ((ends (ends (ends st1 ("eed".toList)).2 ("ed".toList)).2
      ("ing".toList)).2) := ends_wordOK hB _
  rw [step1abTail]
  simp only []
  split_ifs
  · exact wordOK_of_word_eq hE rfl
  · exact hE
  · exact step1abInner_wordOK (wordOK_of_word_eq hB rfl)
  · exact hB
  · exact step1abInner_wordOK (wordOK_of_word_eq hBG rfl)
  · exact hBG

lemma step1ab_wordOK {w0 : List Char} {st : StemSt} (h : WordOK w0 st) :
    WordOK w0 (step1ab st) := by
  rw [step1ab]
  exact step1abTail_wordOK (sBranchDef_wordOK h)

lemma step1c_wordOK {w0 : List Char} {st : StemSt} (h : WordOK w0 st) :
    WordOK w0 (step1c st) := by
  have hY : WordOK w0 ((ends st ("y".toList)).2) := ends_wordOK h _
  rw [step1c]
  simp only []
  split_ifs
  · intro c hc
    simp only [] at hc
    rcases List.mem_or_eq_of_mem_set hc with h1 | h1
    · exact hY c h1
    · exact Or.inr (h1 ▸ by decide)
  · exact hY

lemma step2_wordOK {w0 : List Char} {st : StemSt} (h : WordOK w0 st) :
    WordOK w0 (step2 st) := by
  rw [step2]
  simp only []
  split_ifs
  all_goals first
    | exact tryRs_wordOK _ _ h (by decide)
    | exact h

lemma step3_wordOK {w0 : List Char} {st : StemSt} (h : WordOK w0 st) :
    WordOK w0 (step3 st) := by
  simp only [step3]
  split_ifs
  all_goals first
    | exact tryRs_wordOK _ _ h (by decide)
    | exact h

lemma endsSeq_wordOK {w0 : List Char} :
    ∀ (l : List (List Char)) (st : StemSt), WordOK w0 st →
      WordOK w0 ((endsSeq st l).2) := by
  intro l
  induction l with
  | nil => intro st h; exact h
  | cons s rest ih =>
    intro st h
    rw [endsSeq]
    split_ifs
    · exact ends_wordOK h _
    · exact ih _ (ends_wordOK h _)

lemma step4o_wordOK {w0 : List Char} {st : StemSt} (h : WordOK w0 st) :
    WordOK w0 ((step4o st).2) := by
  have hO : WordOK w0 ((ends st ("ion".toList)).2) := ends_wordOK h _
  rw [step4o]
  split_ifs
  · exact hO
  · exact ends_wordOK hO _

lemma step4switch_wordOK {w0 : List Char} (c : Char) {st : StemSt}
    (h : WordOK w0 st) : WordOK w0 ((step4switch c st).2) := by
  rw [step4switch]
  by_cases h0 : c = 'a'
  · rw [if_pos h0]
    exact endsSeq_wordOK _ _ h
  · rw [if_neg h0]
    by_cases h1 : c = 'c'
    · rw [if_pos h1]
      exact endsSeq_wordOK _ _ h
    · rw [if_neg h1]
      by_cases h2 : c = 'e'
      · rw [if_pos h2]
        exact endsSeq_wordOK _ _ h
      · rw [if_neg h2]
        by_cases h3 : c = 'i'
        · rw [if_pos h3]
          exact endsSeq_wordOK _ _ h
        · rw [if_neg h3]
          by_cases h4 : c = 'l'
          · rw [if_pos h4]
            exact endsSeq_wordOK _ _ h
          · rw [if_neg h4]
            by_cases h5 : c = 'n'
            · rw [if_pos h5]
              exact endsSeq_wordOK _ _ h
            · rw [if_neg h5]
              by_cases h6 : c = 'o'
              · rw [if_pos h6]
                exact step4o_wordOK h
              · rw [if_neg h6]
                by_cases h7 : c = 's'
                · rw [if_pos h7]
                  exact endsSeq_wordOK _ _ h
                · rw [if_neg h7]
                  by_cases h8 : c = 't'
                  · rw [if_pos h8]
                    exact endsSeq_wordOK _ _ h
                  · rw [if_neg h8]
                    by_cases h9 : c = 'u'
                    · rw [if_pos h9]
                      exact endsSeq_wordOK _ _ h
                    · rw [if_neg h9]
                      by_cases h10 : c = 'v'
                      · rw [if_pos h10]
                        exact endsSeq_wordOK _ _ h
                      · rw [if_neg h10]
                        by_cases h11 : c = 'z'
                        · rw [if_pos h11]
                          exact endsSeq_wordOK _ _ h
                        · rw [if_neg h11]
                          exact h

lemma step4core_wordOK {w0 : List Char} {st : StemSt} (h : WordOK w0 st) :
    WordOK w0 ((step4core st).2) := step4switch_wordOK _ h

lemma step4_wordOK {w0 : List Char} {st : StemSt} (h : WordOK w0 st) :
    WordOK w0 (step4 st) := by
  have h4 : WordOK w0 ((step4core st).2) := step4core_wordOK h
  rw [step4]
  simp only []
  split_ifs
  · exact wordOK_of_word_eq h4 rfl
  · exact h4
  · exact h4

lemma step5_wordOK {w0 : List Char} {st : StemSt} (h : WordOK w0 st) :
    WordOK w0 (step5 st) := by
  rw [step5]
  simp only []
  split_ifs
  all_goals exact wordOK_of_word_eq h rfl

/-- Every character of a stemmed word is a character of the input or a
lowercase letter introduced by a replacement suffix. -/
lemma stem_chars (w : List Char) : ∀ c ∈ stem w, c ∈ w ∨ c.isLower := by
  rw [stem]
  simp only []
  split_ifs
  · exact fun c hc => Or.inl hc
  · have h5 : WordOK w (step5 (step4 (step3 (step2 (step1c (step1ab
        ⟨w, (w.length : Int) - 1, 0⟩)))))) :=
      step5_wordOK (step4_wordOK (step3_wordOK (step2_wordOK (step1c_wordOK
        (step1ab_wordOK (fun c hc => Or.inl hc))))))
    intro c hc
    exact h5 c (List.take_subset _ _ hc)

/-! ### Range of `k_` through the stemmer

`stem` truncates to `word_[0..k_]` at the end; the lemmas below show
`0 ≤ k_ < |word_|` is maintained, so the stem of a nonempty word is
nonempty. -/

/-- `k_` stays a valid index of the buffer. -/
def KInv (st : StemSt) : Prop :=
  0 ≤ st.k ∧ st.k < (st.word.length : Int)

lemma ends_false_eq {st : StemSt} {s : List Char} (h : (ends st s).1 = false) :
    (ends st s).2 = st := by
  rw [ends] at h ⊢
  split_ifs at h ⊢ <;> rfl

lemma ends_k (st : StemSt) (s : List Char) : ((ends st s).2).k = st.k := by
  rw [ends]
  split_ifs <;> rfl

lemma ends_true_j {st : StemSt} {s : List Char} (h : (ends st s).1 = true) :
    ((ends st s).2).j = st.k - s.length ∧ (s.length : Int) ≤ st.k + 1 := by
  rw [ends] at h ⊢
  split_ifs at h ⊢ with h1 h2 h3
  exact ⟨rfl, by omega⟩

lemma kinv_of_k_word {st st' : StemSt} (h : KInv st) (hk : st'.k = st.k)
    (hw : st'.word = st.word) : KInv st' := by
  rw [KInv, hk, hw]
  exact h

lemma ends_KInv {st : StemSt} (h : KInv st) (s : List Char) :
    KInv ((ends st s).2) :=
  kinv_of_k_word h (ends_k st s) (ends_snd_word st s)

lemma msrGo_pos12 : ∀ (l : List Bool) (m : Nat), 0 < msrGo l m → 1 ≤ l.length := by
  intro l m h
  cases l with
  | nil => rw [msrGo] at h; omega
  | cons b r => simp only [List.length_cons]; omega

lemma msrGo0_pos : ∀ l : List Bool, 0 < msrGo l 0 → 2 ≤ l.length := by
  intro l
  induction l with
  | nil => intro h; rw [msrGo] at h; omega
  | cons b r ih =>
    intro h
    rw [msrGo] at h
    split_ifs at h with hb
    · have := ih h
      simp only [List.length_cons]
      omega
    · have := msrGo_pos12 r 1 h
      simp only [List.length_cons]
      omega

lemma msr_pos_j {st : StemSt} (h : 0 < msr st) : 1 ≤ st.j := by
  rw [msr] at h
  have h2 := msrGo0_pos _ h
  rw [consFlags, List.length_map, List.length_range] at h2
  omega

lemma vowelInStem_j {st : StemSt} (h : vowelInStem st = true) : 0 ≤ st.j := by
  rw [vowelInStem, List.any_eq_true] at h
  obtain ⟨i, hi, _⟩ := h
  rw [List.mem_range] at hi
  omega

lemma doubleCons_pos {st : StemSt} {i : Int} (h : doubleCons st i = true) :
    1 ≤ i := by
  rw [doubleCons] at h
  split_ifs at h with h1
  omega

lemma setTo_KInv {st : StemSt} {s : List Char} (h : KInv st) (h1 : -1 ≤ st.j)
    (h2 : st.j < (st.word.length : Int)) (h3 : 0 ≤ st.j + s.length) :
    KInv (setTo st s) := by
  obtain ⟨hk0, hkl⟩ := h
  rw [KInv, setTo]
  simp only [List.length_append, List.length_take, List.length_drop]
  have e2 : ((st.j + 1).toNat : Int) = st.j + 1 := Int.toNat_of_nonneg (by omega)
  have e3 : ((st.k + 1).toNat : Int) = st.k + 1 := Int.toNat_of_nonneg (by omega)
  constructor
  · dsimp only
    omega
  · dsimp only
    push_cast
    omega

lemma sBranchDef_KInv {st : StemSt} (h : KInv st) (hk2 : 2 ≤ st.k) :
    KInv (sBranchDef st) := by
  obtain ⟨h1, h2⟩ := h
  have hS : KInv ((ends st ("sses".toList)).2) := ends_KInv ⟨h1, h2⟩ _
  obtain ⟨hS1, hS2⟩ := hS
  have hI : KInv ((ends (ends st ("sses".toList)).2 ("ies".toList)).2) :=
    ends_KInv ⟨hS1, hS2⟩ _
  obtain ⟨hI1, hI2⟩ := hI
  have ekS := ends_k st ("sses".toList)
  have ekI := ends_k (ends st ("sses".toList)).2 ("ies".toList)
  have lSses : ("sses".toList).length = 4 := rfl
  have lIes : ("ies".toList).length = 3 := rfl
  have lI : ("i".toList).length = 1 := rfl
  rw [sBranchDef]
  simp only []
  split_ifs with hc hps hpi hs
  · obtain ⟨hj, hl⟩ := ends_true_j hps
    refine ⟨?_, ?_⟩ <;> dsimp only <;> omega
  · obtain ⟨hj, hl⟩ := ends_true_j hpi
    exact setTo_KInv ⟨hI1, hI2⟩ (by omega) (by omega) (by omega)
  · refine ⟨?_, ?_⟩ <;> dsimp only <;> omega
  · exact ⟨hI1, hI2⟩
  · exact ⟨h1, h2⟩

lemma step1abInner_KInv {st2 : StemSt} (h : KInv st2) (hj0 : 0 ≤ st2.j)
    (hjk : st2.j ≤ st2.k) : KInv (step1abInner st2) := by
  obtain ⟨h1, h2⟩ := h
  have hA : KInv ((ends st2 ("at".toList)).2) := ends_KInv ⟨h1, h2⟩ _
  obtain ⟨hA1, hA2⟩ := hA
  have hB : KInv ((ends (ends st2 ("at".toList)).2 ("bl".toList)).2) :=
    ends_KInv ⟨hA1, hA2⟩ _
  obtain ⟨hB1, hB2⟩ := hB
  have hZ : KInv ((ends (ends (ends st2 ("at".toList)).2 ("bl".toList)).2
      ("iz".toList)).2) := ends_KInv ⟨hB1, hB2⟩ _
  obtain ⟨hZ1, hZ2⟩ := hZ
  have ekA := ends_k st2 ("at".toList)
  have ekB := ends_k (ends st2 ("at".toList)).2 ("bl".toList)
  have ekZ := ends_k (ends (ends st2 ("at".toList)).2 ("bl".toList)).2 ("iz".toList)
  have lAt : ("at".toList).length = 2 := rfl
  have lAte : ("ate".toList).length = 3 := rfl
  have lBl : ("bl".toList).length = 2 := rfl
  have lBle : ("ble".toList).length = 3 := rfl
  have lIz : ("iz".toList).length = 2 := rfl
  have lIze : ("ize".toList).length = 3 := rfl
  have lE : ("e".toList).length = 1 := rfl
  rw [step1abInner]
  simp only []
  split_ifs with hpa hpb hpz hdc hch hcv
  · obtain ⟨hj, hl⟩ := ends_true_j hpa
    exact setTo_KInv ⟨hA1, hA2⟩ (by omega) (by omega) (by omega)
  · obtain ⟨hj, hl⟩ := ends_true_j hpb
    exact setTo_KInv ⟨hB1, hB2⟩ (by omega) (by omega) (by omega)
  · obtain ⟨hj, hl⟩ := ends_true_j hpz
    exact setTo_KInv ⟨hZ1, hZ2⟩ (by omega) (by omega) (by omega)
  · exact ⟨hZ1, hZ2⟩
  · have hd1 := doubleCons_pos hdc
    refine ⟨?_, ?_⟩ <;> dsimp only <;> omega
  · have e1 : (ends st2 ("at".toList)).2 = st2 :=
      ends_false_eq ((Bool.not_eq_true _) ▸ hpa)
    rw [e1] at hpb hpz ⊢
    have e2 : (ends st2 ("bl".toList)).2 = st2 :=
      ends_false_eq ((Bool.not_eq_true _) ▸ hpb)
    rw [e2] at hpz ⊢
    have e3 : (ends st2 ("iz".toList)).2 = st2 :=
      ends_false_eq ((Bool.not_eq_true _) ▸ hpz)
    rw [e3]
    exact setTo_KInv ⟨h1, h2⟩ (by omega) (by omega) (by omega)
  · exact ⟨hZ1, hZ2⟩

lemma step1abTail_KInv {st1 : StemSt} (h : KInv st1) : KInv (step1abTail st1) := by
  obtain ⟨h1, h2⟩ := h
  have hE : KInv ((ends st1 ("eed".toList)).2) := ends_KInv ⟨h1, h2⟩ _
  obtain ⟨hE1, hE2⟩ := hE
  have hB : KInv ((ends (ends st1 ("eed".toList)).2 ("ed".toList)).2) :=
    ends_KInv ⟨hE1, hE2⟩ _
  obtain ⟨hB1, hB2⟩ := hB
  have hG : KInv ((ends (ends (ends st1 ("eed".toList)).2 ("ed".toList)).2
      ("ing".toList)).2) := ends_KInv ⟨hB1, hB2⟩ _
  obtain ⟨hG1, hG2⟩ := hG
  have ekE := ends_k st1 ("eed".toList)
  have ekB := ends_k (ends st1 ("eed".toList)).2 ("ed".toList)
  have ekG := ends_k (ends (ends st1 ("eed".toList)).2 ("ed".toList)).2 ("ing".toList)
  have lEed : ("eed".toList).length = 3 := rfl
  have lEd : ("ed".toList).length = 2 := rfl
  have lIng : ("ing".toList).length = 3 := rfl
  rw [step1abTail]
  simp only []
  split_ifs with hpe hm hpd hcond hcond2
  · obtain ⟨hj, hl⟩ := ends_true_j hpe
    refine ⟨?_, ?_⟩ <;> dsimp only <;> omega
  · exact ⟨hE1, hE2⟩
  · obtain ⟨hj, hl⟩ := ends_true_j hpd
    have hv : 0 ≤ ((ends (ends st1 ("eed".toList)).2 ("ed".toList)).2).j :=
      vowelInStem_j hcond.2
    refine step1abInner_KInv ⟨?_, ?_⟩ ?_ ?_ <;> dsimp only <;> omega
  · exact ⟨hB1, hB2⟩
  · have hg : (ends (ends (ends st1 ("eed".toList)).2 ("ed".toList)).2
        ("ing".toList)).1 = true := by
      rcases hcond2.1 with hx | hx
      · exact absurd hx hpd
      · exact hx
    obtain ⟨hj, hl⟩ := ends_true_j hg
    have hv : 0 ≤ ((ends (ends (ends st1 ("eed".toList)).2 ("ed".toList)).2
        ("ing".toList)).2).j := vowelInStem_j hcond2.2
    refine step1abInner_KInv ⟨?_, ?_⟩ ?_ ?_ <;> dsimp only <;> omega
  · exact ⟨hG1, hG2⟩

lemma step1ab_KInv {st : StemSt} (h : KInv st) (hk2 : 2 ≤ st.k) :
    KInv (step1ab st) := by
  rw [step1ab]
  exact step1abTail_KInv (sBranchDef_KInv h hk2)

lemma step1c_KInv {st : StemSt} (h : KInv st) : KInv (step1c st) := by
  have hY : KInv ((ends st ("y".toList)).2) := ends_KInv h _
  obtain ⟨hY1, hY2⟩ := hY
  rw [step1c]
  simp only []
  split_ifs
  · refine ⟨?_, ?_⟩ <;> dsimp only
    · omega
    · rw [List.length_set]
      omega
  · exact ⟨hY1, hY2⟩

lemma tryR_KInv {st : StemSt} (h : KInv st) {sfx repl : List Char} :
    KInv ((tryR st sfx repl).2) := by
  obtain ⟨h1, h2⟩ := h
  have hP : KInv ((ends st sfx).2) := ends_KInv ⟨h1, h2⟩ _
  obtain ⟨hP1, hP2⟩ := hP
  have ekP := ends_k st sfx
  rw [tryR]
  split_ifs with hs hm
  · obtain ⟨hj, hl⟩ := ends_true_j hs
    have hjp := msr_pos_j hm
    exact setTo_KInv ⟨hP1, hP2⟩ (by omega) (by omega) (by omega)
  · exact ⟨hP1, hP2⟩
  · exact ⟨hP1, hP2⟩

lemma tryRs_KInv :
    ∀ (l : List (List Char × List Char)) (st : StemSt), KInv st →
      KInv (tryRs st l) := by
  intro l
  induction l with
  | nil => intro st h; exact h
  | cons pr rest ih =>
    intro st h
    rw [tryRs]
    split_ifs
    · exact tryR_KInv h
    · exact ih _ (tryR_KInv h)

lemma step2_KInv {st : StemSt} (h : KInv st) : KInv (step2 st) := by
  rw [step2]
  simp only []
  split_ifs
  all_goals first
    | exact tryRs_KInv _ _ h
    | exact h

lemma step3_KInv {st : StemSt} (h : KInv st) : KInv (step3 st) := by
  simp only [step3]
  split_ifs
  all_goals first
    | exact tryRs_KInv _ _ h
    | exact h

lemma endsSeq_k_word :
    ∀ (l : List (List Char)) (st : StemSt),
      ((endsSeq st l).2).k = st.k ∧ ((endsSeq st l).2).word = st.word := by
  intro l
  induction l with
  | nil => intro st; exact ⟨rfl, rfl⟩
  | cons s rest ih =>
    intro st
    rw [endsSeq]
    split_ifs
    · exact ⟨ends_k st s, ends_snd_word st s⟩
    · obtain ⟨h1, h2⟩ := ih (ends st s).2
      exact ⟨h1.trans (ends_k st s), h2.trans (ends_snd_word st s)⟩

lemma endsSeq_true_j :
    ∀ (l : List (List Char)) (st : StemSt), (∀ s ∈ l, 1 ≤ s.length) →
      (endsSeq st l).1 = true →
      -1 ≤ ((endsSeq st l).2).j ∧ ((endsSeq st l).2).j < st.k := by
  intro l
  induction l with
  | nil =>
    intro st _ h
    rw [endsSeq] at h
    exact absurd h (by simp)
  | cons s rest ih =>
    intro st hl h
    rw [endsSeq] at h ⊢
    split_ifs at h ⊢ with h1
    · obtain ⟨hj, hle⟩ := ends_true_j h1
      have hs1 : 1 ≤ s.length := hl s (by simp)
      refine ⟨?_, ?_⟩ <;> dsimp only <;> omega
    · have e1 : (ends st s).2 = st := ends_false_eq ((Bool.not_eq_true _) ▸ h1)
      rw [e1] at h ⊢
      exact ih st (fun q hq => hl q (by simp [hq])) h

lemma step4o_k_word (st : StemSt) :
    ((step4o st).2).k = st.k ∧ ((step4o st).2).word = st.word := by
  have e1 := ends_k st ("ion".toList)
  have e2 := ends_snd_word st ("ion".toList)
  have e3 := ends_k (ends st ("ion".toList)).2 ("ou".toList)
  have e4 := ends_snd_word (ends st ("ion".toList)).2 ("ou".toList)
  rw [step4o]
  split_ifs
  · exact ⟨e1, e2⟩
  · exact ⟨e3.trans e1, e4.trans e2⟩

lemma step4o_true_j {st : StemSt} (h : (step4o st).1 = true) :
    -1 ≤ ((step4o st).2).j ∧ ((step4o st).2).j < st.k := by
  have ekI := ends_k st ("ion".toList)
  have lIon : ("ion".toList).length = 3 := rfl
  have lOu : ("ou".toList).length = 2 := rfl
  rw [step4o] at h ⊢
  split_ifs at h ⊢ with h1
  · obtain ⟨hj, hle⟩ := ends_true_j h1.1
    refine ⟨?_, ?_⟩ <;> dsimp only <;> omega
  · obtain ⟨hj, hle⟩ := ends_true_j h
    refine ⟨?_, ?_⟩ <;> omega

lemma step4switch_k_word (c : Char) (st : StemSt) :
    ((step4switch c st).2).k = st.k ∧ ((step4switch c st).2).word = st.word := by
  rw [step4switch]
  by_cases g0 : c = 'a'
  · rw [if_pos g0]
    exact endsSeq_k_word _ _
  · rw [if_neg g0]
    by_cases g1 : c = 'c'
    · rw [if_pos g1]
      exact endsSeq_k_word _ _
    · rw [if_neg g1]
      by_cases g2 : c = 'e'
      · rw [if_pos g2]
        exact endsSeq_k_word _ _
      · rw [if_neg g2]
        by_cases g3 : c = 'i'
        · rw [if_pos g3]
          exact endsSeq_k_word _ _
        · rw [if_neg g3]
          by_cases g4 : c = 'l'
          · rw [if_pos g4]
            exact endsSeq_k_word _ _
          · rw [if_neg g4]
            by_cases g5 : c = 'n'
            · rw [if_pos g5]
              exact endsSeq_k_word _ _
            · rw [if_neg g5]
              by_cases g6 : c = 'o'
              · rw [if_pos g6]
                exact step4o_k_word _
              · rw [if_neg g6]
                by_cases g7 : c = 's'
                · rw [if_pos g7]
                  exact endsSeq_k_word _ _
                · rw [if_neg g7]
                  by_cases g8 : c = 't'
                  · rw [if_pos g8]
                    exact endsSeq_k_word _ _
                  · rw [if_neg g8]
                    by_cases g9 : c = 'u'
                    · rw [if_pos g9]
                      exact endsSeq_k_word _ _
                    · rw [if_neg g9]
                      by_cases g10 : c = 'v'
                      · rw [if_pos g10]
                        exact endsSeq_k_word _ _
                      · rw [if_neg g10]
                        by_cases g11 : c = 'z'
                        · rw [if_pos g11]
                          exact endsSeq_k_word _ _
                        · rw [if_neg g11]
                          exact ⟨rfl, rfl⟩

lemma step4switch_true_j {c : Char} {st : StemSt}
    (h : (step4switch c st).1 = true) :
    -1 ≤ ((step4switch c st).2).j ∧ ((step4switch c st).2).j < st.k := by
  rw [step4switch] at h ⊢
  by_cases g0 : c = 'a'
  · rw [if_pos g0] at h ⊢
    exact endsSeq_true_j _ _ (by decide) h
  · rw [if_neg g0] at h ⊢
    by_cases g1 : c = 'c'
    · rw [if_pos g1] at h ⊢
      exact endsSeq_true_j _ _ (by decide) h
    · rw [if_neg g1] at h ⊢
      by_cases g2 : c = 'e'
      · rw [if_pos g2] at h ⊢
        exact endsSeq_true_j _ _ (by decide) h
      · rw [if_neg g2] at h ⊢
        by_cases g3 : c = 'i'
        · rw [if_pos g3] at h ⊢
          exact endsSeq_true_j _ _ (by decide) h
        · rw [if_neg g3] at h ⊢
          by_cases g4 : c = 'l'
          · rw [if_pos g4] at h ⊢
            exact endsSeq_true_j _ _ (by decide) h
          · rw [if_neg g4] at h ⊢
            by_cases g5 : c = 'n'
            · rw [if_pos g5] at h ⊢
              exact endsSeq_true_j _ _ (by decide) h
            · rw [if_neg g5] at h ⊢
              by_cases g6 : c = 'o'
              · rw [if_pos g6] at h ⊢
                exact step4o_true_j h
              · rw [if_neg g6] at h ⊢
                by_cases g7 : c = 's'
                · rw [if_pos g7] at h ⊢
                  exact endsSeq_true_j _ _ (by decide) h
                · rw [if_neg g7] at h ⊢
                  by_cases g8 : c = 't'
                  · rw [if_pos g8] at h ⊢
                    exact endsSeq_true_j _ _ (by decide) h
                  · rw [if_neg g8] at h ⊢
                    by_cases g9 : c = 'u'
                    · rw [if_pos g9] at h ⊢
                      exact endsSeq_true_j _ _ (by decide) h
                    · rw [if_neg g9] at h ⊢
                      by_cases g10 : c = 'v'
                      · rw [if_pos g10] at h ⊢
                        exact endsSeq_true_j _ _ (by decide) h
                      · rw [if_neg g10] at h ⊢
                        by_cases g11 : c = 'z'
                        · rw [if_pos g11] at h ⊢
                          exact endsSeq_true_j _ _ (by decide) h
                        · rw [if_neg g11] at h ⊢
                          exact absurd h (by simp)

lemma step4_KInv {st : StemSt} (h : KInv st) : KInv (step4 st) := by
  obtain ⟨h1, h2⟩ := h
  have hkw : ((step4core st).2).k = st.k ∧ ((step4core st).2).word = st.word :=
    step4switch_k_word _ st
  obtain ⟨hkw1, hkw2⟩ := hkw
  have hC : KInv ((step4core st).2) := kinv_of_k_word ⟨h1, h2⟩ hkw1 hkw2
  obtain ⟨hC1, hC2⟩ := hC
  rw [step4]
  simp only []
  split_ifs with hs hm
  · have hj : -1 ≤ ((step4core st).2).j ∧ ((step4core st).2).j < st.k :=
      step4switch_true_j hs
    have hjp := msr_pos_j (show 0 < msr ((step4core st).2) by omega)
    refine ⟨?_, ?_⟩ <;> dsimp only <;> omega
  · exact ⟨hC1, hC2⟩
  · exact ⟨hC1, hC2⟩

lemma step5_KInv {st : StemSt} (h : KInv st) : KInv (step5 st) := by
  obtain ⟨h1, h2⟩ := h
  rw [step5]
  simp only []
  split_ifs with hc1 hc2 hc3 hc4 hc5
  · have h' : 0 < msr (⟨st.word, st.k, st.k⟩ : StemSt) := by
      rcases hc2 with hx | hx
      · omega
      · omega
    have hm : (1 : Int) ≤ st.k := msr_pos_j h'
    have hd : (1 : Int) ≤ st.k - 1 := doubleCons_pos hc3.2.1
    refine ⟨?_, ?_⟩ <;> dsimp only <;> omega
  · have h' : 0 < msr (⟨st.word, st.k, st.k⟩ : StemSt) := by
      rcases hc2 with hx | hx
      · omega
      · omega
    have hm : (1 : Int) ≤ st.k := msr_pos_j h'
    refine ⟨?_, ?_⟩ <;> dsimp only <;> omega
  · have hd : (1 : Int) ≤ st.k := doubleCons_pos hc4.2.1
    refine ⟨?_, ?_⟩ <;> dsimp only <;> omega
  · exact ⟨h1, h2⟩
  · have hd : (1 : Int) ≤ st.k := doubleCons_pos hc5.2.1
    refine ⟨?_, ?_⟩ <;> dsimp only <;> omega
  · exact ⟨h1, h2⟩

/-- The stem of a nonempty word is nonempty. -/
lemma stem_ne {w : List Char} (hw : w ≠ []) : stem w ≠ [] := by
  rw [stem]
  simp only []
  split_ifs with h1
  · exact hw
  · have h0 : KInv ⟨w, (w.length : Int) - 1, 0⟩ := by
      constructor <;> dsimp only <;> omega
    have h5 : KInv (step5 (step4 (step3 (step2 (step1c (step1ab
        ⟨w, (w.length : Int) - 1, 0⟩)))))) :=
      step5_KInv (step4_KInv (step3_KInv (step2_KInv (step1c_KInv
        (step1ab_KInv h0 (by dsimp only; omega))))))
    obtain ⟨hk0, hkl⟩ := h5
    intro hcon
    rw [List.take_eq_nil_iff] at hcon
    rcases hcon with hcon | hcon
    · omega
    · rw [hcon] at hkl
      simp at hkl
      omega

/-! ### Well-formed index terms

Terms stored by `add_document` are stems of tokenizer output: nonempty
(the builder skips empty stems) and made of lowercase ASCII letters and
apostrophes, hence free of whitespace; that is what makes the text round
trip through `vocabulary.txt` parse back exactly. -/

lemma isLower_ofNat (m : Nat) (h1 : 97 ≤ m) (h2 : m ≤ 122) :
    (Char.ofNat m).isLower = true := by
  interval_cases m <;> decide

lemma isLower_lowerCh {c : Char} (h : isAlphaCh c = true) :
    (lowerCh c).isLower = true := by
  rw [isAlphaCh, Char.isAlpha, Bool.or_eq_true] at h
  rcases h with h | h
  · simp only [Char.isUpper, Bool.and_eq_true, decide_eq_true_eq] at h
    have h' : 65 ≤ c.toNat ∧ c.toNat ≤ 90 := ⟨h.1, h.2⟩
    rw [lowerCh, Char.toLower]
    rw [if_pos (by simp only [Bool.and_eq_true, decide_eq_true_eq, ge_iff_le]; omega)]
    exact isLower_ofNat _ (by omega) (by omega)
  · rw [lowerCh]
    have h' : 97 ≤ c.toNat ∧ c.toNat ≤ 122 := by
      simp only [Char.isLower, Bool.and_eq_true, decide_eq_true_eq] at h
      exact ⟨h.1, h.2⟩
    rw [Char.toLower]
    rw [if_neg (by simp only [Bool.and_eq_true, decide_eq_true_eq, ge_iff_le]; omega)]
    exact h

lemma lowerCh_apos : lowerCh apos = apos := by decide

/-- A term as the loader can reparse it: nonempty, lowercase letters and
apostrophes only. -/
def TermWF (k : List Char) : Prop :=
  k ≠ [] ∧ ∀ c ∈ k, c.isLower = true ∨ c = apos

lemma termWF_no_spc {k : List Char} (h : TermWF k) : ∀ c ∈ k, isSpc c = false := by
  intro c hc
  rcases h.2 c hc with h1 | h1
  · exact isSpc_of_isLower h1
  · rw [h1]; decide

lemma flushTok_wf {cur : List Char}
    (hcur : ∀ c ∈ cur, isAlphaCh c = true ∨ c = apos) :
    ∀ t ∈ flushTok cur, 2 ≤ t.length ∧ ∀ c ∈ t, c.isLower = true ∨ c = apos := by
  intro t ht
  rw [flushTok] at ht
  split_ifs at ht with hg
  · simp only [List.mem_singleton] at ht
    subst ht
    refine ⟨hg.1, ?_⟩
    intro c hc
    obtain ⟨c0, hc0, rfl⟩ := List.mem_map.mp hc
    rcases hcur c0 hc0 with h1 | h1
    · exact Or.inl (isLower_lowerCh h1)
    · subst h1
      exact Or.inr lowerCh_apos
  · simp at ht

lemma tokenizeAux_wf :
    ∀ (rest cur : List Char), (∀ c ∈ cur, isAlphaCh c = true ∨ c = apos) →
      ∀ t ∈ tokenizeAux rest cur,
        2 ≤ t.length ∧ ∀ c ∈ t, c.isLower = true ∨ c = apos := by
  intro rest
  induction rest with
  | nil =>
    intro cur hcur t ht
    rw [tokenizeAux] at ht
    exact flushTok_wf hcur t ht
  | cons c rest ih =>
    intro cur hcur t ht
    rw [tokenizeAux] at ht
    split_ifs at ht with hc
    · refine ih (cur ++ [c]) ?_ t ht
      intro d hd
      rcases List.mem_append.mp hd with h1 | h1
      · exact hcur d h1
      · simp only [List.mem_singleton] at h1
        subst h1
        rcases hc with h2 | h2
        · exact Or.inl h2
        · exact Or.inr h2.1
    · rcases List.mem_append.mp ht with h1 | h1
      · exact flushTok_wf hcur t h1
      · exact ih [] (by simp) t h1

/-- Every token emitted by the tokenizer has length at least 2 and
consists of lowercase letters and apostrophes. -/
lemma tokenize_wf (text : List Char) :
    ∀ t ∈ tokenize text, 2 ≤ t.length ∧ ∀ c ∈ t, c.isLower = true ∨ c = apos :=
  tokenizeAux_wf text [] (by simp)

/-- The stem of a well-formed token is made of lowercase letters and
apostrophes. -/
lemma stem_tok_chars {t : List Char} (ht : ∀ c ∈ t, c.isLower = true ∨ c = apos) :
    ∀ c ∈ stem t, c.isLower = true ∨ c = apos := by
  intro c hc
  rcases stem_chars t c hc with h1 | h1
  · exact ht c h1
  · exact Or.inl h1

/-- Builders reachable from the empty builder through `add_document`. -/
inductive Built : Builder → Prop
  | empty : Built emptyBuilder
  | add (b : Builder) (doc_id : Nat) (url title text : List Char) :
      Built b → Built (add_document b doc_id url title text)

lemma keysOf_postStep (d : Nat) (acc : List (List Char × List (Nat × Nat)))
    (p : List Char × Nat) :
    keysOf (postStep d acc p) =
      if p.1 ∈ keysOf acc then keysOf acc else keysOf acc ++ [p.1] := by
  rw [postStep]
  cases findAssoc acc p.1 with
  | some pl => exact keysOf_insertAssoc p.1 _ acc
  | none => exact keysOf_insertAssoc p.1 _ acc

lemma posts_fold_wf (d : Nat) :
    ∀ (tfs : List (List Char × Nat)) (acc : List (List Char × List (Nat × Nat))),
      (∀ e ∈ acc, TermWF e.1) → (keysOf acc).Nodup → (∀ p ∈ tfs, TermWF p.1) →
      (∀ e ∈ tfs.foldl (postStep d) acc, TermWF e.1) ∧
        (keysOf (tfs.foldl (postStep d) acc)).Nodup := by
  intro tfs
  induction tfs with
  | nil => intro acc h1 h2 _; exact ⟨h1, h2⟩
  | cons q rest ih =>
    intro acc h1 h2 h3
    rw [List.foldl_cons]
    refine ih (postStep d acc q) ?_ ?_ (fun p hp => h3 p (by simp [hp]))
    · intro e he
      rw [postStep] at he
      cases hf : findAssoc acc q.1 with
      | some pl =>
        rw [hf] at he
        rcases mem_insertAssoc e he with hx | hx
        · rw [hx]; exact h3 q (by simp)
        · exact h1 e hx
      | none =>
        rw [hf] at he
        rcases mem_insertAssoc e he with hx | hx
        · rw [hx]; exact h3 q (by simp)
        · exact h1 e hx
    · rw [postStep]
      cases findAssoc acc q.1 with
      | some pl => exact nodup_keys_insertAssoc h2
      | none => exact nodup_keys_insertAssoc h2

lemma tf_fold_wf (tokens : List (List Char))
    (htok : ∀ t ∈ tokens, 2 ≤ t.length ∧ ∀ c ∈ t, c.isLower = true ∨ c = apos) :
    ∀ acc : List (List Char × Nat), (∀ p ∈ acc, TermWF p.1) →
      ∀ p ∈ tokens.foldl tfStep acc, TermWF p.1 := by
  induction tokens with
  | nil => intro acc hacc; simpa using hacc
  | cons tok tokens ih =>
    intro acc hacc
    rw [List.foldl_cons]
    refine ih (fun t htm => htok t (by simp [htm])) _ ?_
    rw [tfStep]
    split_ifs with hs
    · exact hacc
    · have hwf : TermWF (stem tok) :=
        ⟨hs, stem_tok_chars (htok tok (by simp)).2⟩
      cases findAssoc acc (stem tok) with
      | some c =>
        intro p hp
        rcases mem_insertAssoc p hp with hx | hx
        · rw [hx]; exact hwf
        · exact hacc p hx
      | none =>
        intro p hp
        rcases mem_insertAssoc p hp with hx | hx
        · rw [hx]; exact hwf
        · exact hacc p hx

/-- Structural invariants of every reachable builder: well-formed,
duplicate-free terms and aligned document arrays. -/
lemma built_wf {b : Builder} (hb : Built b) :
    (∀ e ∈ b.inv, TermWF e.1) ∧ (keysOf b.inv).Nodup ∧
      b.titles.length = b.urls.length ∧ b.lens.length = b.urls.length := by
  induction hb with
  | empty => refine ⟨by simp [emptyBuilder], by simp [emptyBuilder, keysOf], rfl, rfl⟩
  | add b d url title text _ ih =>
    obtain ⟨h1, h2, h3, h4⟩ := ih
    have hterms : ∀ p ∈ (tokenize text).foldl tfStep [], TermWF p.1 :=
      tf_fold_wf (tokenize text) (tokenize_wf text) [] (by simp)
    have hposts := posts_fold_wf d ((tokenize text).foldl tfStep []) b.inv h1 h2 hterms
    refine ⟨hposts.1, hposts.2, ?_, ?_⟩
    · show ((padTo b.titles d []).set d title).length = ((padTo b.urls d []).set d url).length
      simp only [List.length_set, padTo, List.length_append, List.length_replicate]
      omega
    · show ((padTo b.lens d 0).set d (tokenize text).length).length =
        ((padTo b.urls d []).set d url).length
      simp only [List.length_set, padTo, List.length_append, List.length_replicate]
      omega

/-! ### Reparsing the saved text files -/

lemma insertAssoc_fresh {β : Type} {k : List Char} (v : β) :
    ∀ l : List (List Char × β), k ∉ keysOf l → insertAssoc l k v = l ++ [(k, v)] := by
  intro l
  induction l with
  | nil => intro _; rfl
  | cons q rest ih =>
    intro hk
    obtain ⟨k0, v0⟩ := q
    have hne : k ≠ k0 := by
      intro h
      exact hk (by rw [keysOf, List.map_cons, h]; exact List.mem_cons_self _ _)
    have hrest : k ∉ keysOf rest := by
      intro h
      exact hk (by rw [keysOf, List.map_cons]; exact List.mem_cons_of_mem _ h)
    rw [insertAssoc, if_neg (fun h => hne h.symm), ih hrest, List.cons_append]

lemma dropWhile_spc_of_head {l : List Char} {c : Char} (hh : l.head? = some c)
    (hc : isSpc c = false) : l.dropWhile (fun c => isSpc c) = l := by
  cases l with
  | nil => simp at hh
  | cons a tl =>
    simp only [List.head?_cons, Option.some_inj] at hh
    subst hh
    rw [List.dropWhile_cons, if_neg (by simp [hc])]

/-- Reading a token from a space, a whitespace-free nonempty token and a
space-led remainder recovers the token. -/
lemma readToken_line (term : List Char) (hne : term ≠ [])
    (hns : ∀ c ∈ term, isSpc c = false) (r : List Char) :
    readToken (' ' :: (term ++ ' ' :: r)) = (term, ' ' :: r) := by
  rw [readToken]
  obtain ⟨c0, tl, hct⟩ := List.exists_cons_of_ne_nil hne
  have hdrop : (' ' :: (term ++ ' ' :: r)).dropWhile (fun c => isSpc c) = term ++ ' ' :: r := by
    rw [List.dropWhile_cons, if_pos (by decide)]
    rw [hct, List.cons_append, List.dropWhile_cons,
      if_neg (by simp [hns c0 (by rw [hct]; simp)])]
  have hspan := span_append (p := fun c => ¬ isSpc c) term (' ' :: r)
    (fun c hc => by simp [hns c hc])
    (fun c hc => by
      simp only [List.head?_cons, Option.some_inj] at hc
      subst hc
      decide)
  rw [hdrop, hspan.1, hspan.2]

/-- One saved vocabulary line against the matching binary block: the
loader recovers the term and its posting pairs. -/
lemma loadVocabStep_line (acc : List (List Char × List (Int × Int))) (i df : Nat)
    (term : List Char) (hne : term ≠ []) (hns : ∀ c ∈ term, isSpc c = false)
    (pl : List (Nat × Nat)) (extra : List Int) :
    loadVocabStep (acc, Int.ofNat pl.length ::
        ((pl.map (fun p => [Int.ofNat p.1, Int.ofNat p.2])).flatten ++ extra))
      (natToDigits i ++ ' ' :: (term ++ ' ' :: natToDigits df)) =
      (insertAssoc acc term (pl.map (fun p => (Int.ofNat p.1, Int.ofNat p.2))), extra) := by
  rw [loadVocabStep]
  rw [readInt_natToDigits i (' ' :: (term ++ ' ' :: natToDigits df))
    (by intro c hc
        simp only [List.head?_cons, Option.some_inj] at hc
        subst hc
        decide)]
  dsimp only []
  rw [readToken_line term hne hns (natToDigits df)]
  dsimp only []
  rw [show (Int.ofNat pl.length).toNat = pl.length from rfl]
  rw [takePairs_encoded]

/-- Folding the vocabulary loader over saved lines and the matching
binary stream rebuilds the builder's inverted index (with integer
postings), regardless of the printed term ids. -/
lemma loadVocab_fold :
    ∀ (inv : List (List Char × List (Nat × Nat))) (i0 : Nat)
      (acc : List (List Char × List (Int × Int))) (extra : List Int),
      (∀ e ∈ inv, TermWF e.1) →
      (∀ e ∈ inv, e.1 ∉ keysOf acc) →
      (keysOf inv).Nodup →
      ((inv.enumFrom i0).map
          (fun e => natToDigits e.1 ++ ' ' :: (e.2.1 ++ ' ' :: natToDigits e.2.2.length))).foldl
        loadVocabStep
        (acc, (inv.map (fun e => Int.ofNat e.2.length ::
            (e.2.map (fun p => [Int.ofNat p.1, Int.ofNat p.2])).flatten)).flatten ++ extra) =
      (acc ++ inv.map (fun e => (e.1, e.2.map (fun p => (Int.ofNat p.1, Int.ofNat p.2)))),
        extra) := by
  intro inv
  induction inv with
  | nil => intro i0 acc extra _ _ _; simp
  | cons e rest ih =>
    intro i0 acc extra hwf hfresh hnd
    obtain ⟨term, pl⟩ := e
    rw [List.enumFrom]
    simp only [List.map_cons, List.foldl_cons, List.flatten_cons, List.cons_append,
      List.append_assoc]
    rw [loadVocabStep_line acc i0 pl.length term (hwf (term, pl) (by simp)).1
      (termWF_no_spc (hwf (term, pl) (by simp))) pl _]
    rw [insertAssoc_fresh (k := term) _ acc (hfresh (term, pl) (by simp))]
    have hnd2 : (keysOf rest).Nodup := (List.nodup_cons.mp hnd).2
    have hterm_notin : term ∉ keysOf rest := by
      have := (List.nodup_cons.mp hnd).1
      simpa [keysOf] using this
    refine (ih (i0 + 1) (acc ++ [(term, pl.map (fun p => (Int.ofNat p.1, Int.ofNat p.2)))])
      extra (fun q hq => hwf q (by simp [hq]))
      (by
        intro q hq
        simp only [keysOf, List.map_append, List.map_cons, List.map_nil, List.mem_append,
          List.mem_singleton]
        push_neg
        refine ⟨?_, ?_⟩
        · have := hfresh q (by simp [hq])
          simpa [keysOf] using this
        · intro hcon
          exact hterm_notin (hcon ▸ List.mem_map.mpr ⟨q, hq, rfl⟩))
      hnd2).trans ?_
    simp

lemma padTo_eq_append {α : Type} {l : List α} {n : Nat} (h : l.length = n) (d : α) :
    padTo l n d = l ++ [d] := by
  rw [padTo, h]
  simp

lemma padTo_noop {α : Type} {l : List α} {n : Nat} (h : n < l.length) (d : α) :
    padTo l n d = l := by
  rw [padTo]
  rw [show n + 1 - l.length = 0 from by omega]
  simp

lemma set_append_len {α : Type} (l : List α) (x v : α) :
    (l ++ [x]).set l.length v = l ++ [v] := by
  induction l with
  | nil => rfl
  | cons a tl ih =>
    simp only [List.cons_append, List.length_cons, List.set_cons_succ]
    rw [ih]

lemma set_append_len' {α : Type} (l : List α) (x v : α) {n : Nat} (h : n = l.length) :
    (l ++ [x]).set n v = l ++ [v] := by
  subst h
  exact set_append_len l x v

/-- One saved `documents.txt` line: the loader appends exactly the URL
and title written for the next document, provided the URL has no tab. -/
lemma loadDocStep_line (accU accT : List (List Char)) (accL : List Int) (k : Nat)
    (hU : accU.length = k) (hT : accT.length = k) (hL : accL.length = k)
    (url title : List Char) (htab : tabc ∉ url) :
    loadDocStep (accU, accT, accL) (natToDigits k ++ tabc :: url ++ tabc :: title) =
      (accU ++ [url], accT ++ [title], accL ++ [0]) := by
  rw [loadDocStep]
  rw [List.append_assoc]
  rw [readInt_natToDigits k (tabc :: url ++ tabc :: title)
    (by intro c hc
        rw [List.cons_append] at hc
        simp only [List.head?_cons, Option.some_inj] at hc
        subst hc
        decide)]
  dsimp only []
  have hrest2 : (getlineTab (tabc :: url ++ tabc :: title)).2 = url ++ tabc :: title := by
    rw [getlineTab]
    simp only [List.cons_append]
    rw [List.dropWhile_cons, if_neg (by simp)]
  have hsp := span_append (p := fun c => c ≠ tabc) url (tabc :: title)
    (fun c hc => by simp; exact fun h => htab (h ▸ hc))
    (fun c hc => by
      simp only [List.head?_cons, Option.some_inj] at hc
      subst hc
      simp)
  have hurl : (getlineTab (url ++ tabc :: title)).1 = url := by
    rw [getlineTab]
    exact hsp.1
  have htitle : (getlineTab (url ++ tabc :: title)).2 = title := by
    rw [getlineTab]
    simp only [hsp.2]
  rw [hrest2, hurl, htitle]
  rw [if_neg (by simp only [Int.ofNat_eq_natCast]; omega)]
  rw [show (Int.ofNat k).toNat = k from rfl]
  rw [padTo_eq_append hU, padTo_eq_append hT, padTo_eq_append hL]
  rw [set_append_len' _ _ _ hU.symm, set_append_len' _ _ _ hT.symm]

lemma take_succ_getD {α : Type} {l : List α} {k : Nat} (h : k < l.length) (d : α) :
    l.take (k + 1) = l.take k ++ [l.getD k d] := by
  rw [List.take_succ]
  congr 1
  rw [List.getD_eq_getElem l d h]
  rw [List.getElem?_eq_getElem h]
  rfl

/-- Folding the document loader over the first `k` saved lines rebuilds
the first `k` URLs and titles. -/
lemma loadDocs_upto (urls titles : List (List Char))
    (htab : ∀ u ∈ urls, tabc ∉ u) (hlen : titles.length = urls.length) :
    ∀ k, k ≤ urls.length →
      ((List.range k).map (fun i =>
          natToDigits i ++ tabc :: urls.getD i [] ++ tabc :: titles.getD i [])).foldl
        loadDocStep ([], [], []) =
      (urls.take k, titles.take k, List.replicate k 0) := by
  intro k
  induction k with
  | zero => intro _; simp
  | succ k ih =>
    intro hk
    rw [List.range_succ, List.map_append, List.foldl_append, ih (by omega)]
    simp only [List.map_cons, List.map_nil, List.foldl_cons, List.foldl_nil]
    rw [loadDocStep_line _ _ _ k (by simp; omega) (by simp; omega)
      (by simp) _ _ (htab _ (by
        rw [List.getD_eq_getElem _ _ (by omega)]
        exact List.getElem_mem _))]
    rw [← take_succ_getD (by omega), ← take_succ_getD (by omega)]
    rw [← List.replicate_succ']

/-- Folding the length loader over `vals` with a zero-filled array of
matching length replaces it by `vals`. -/
lemma loadLens_fold :
    ∀ (vals : List Int) (cur : List Int) (i : Nat), cur.length = i + vals.length →
      vals.foldl
        (fun (acc : List Int × Nat) v => ((padTo acc.1 acc.2 0).set acc.2 v, acc.2 + 1))
        (cur, i) =
      (cur.take i ++ vals, i + vals.length) := by
  intro vals
  induction vals with
  | nil =>
    intro cur i h
    simp only [List.length_nil, Nat.add_zero] at h
    subst h
    simp [List.take_length]
  | cons v vs ih =>
    intro cur i h
    simp only [List.length_cons] at h
    rw [List.foldl_cons]
    dsimp only []
    rw [padTo_noop (by omega)]
    rw [ih (cur.set i v) (i + 1) (by simp only [List.length_set]; omega)]
    have hlen : (cur.take i).length = i := by
      simp only [List.length_take]
      omega
    have hset : (cur.set i v).take (i + 1) = cur.take i ++ [v] := by
      rw [List.set_take, take_succ_getD (d := 0) (by omega)]
      rw [set_append_len' _ _ _ hlen.symm]
    rw [hset]
    simp only [Prod.mk.injEq]
    constructor
    · rw [List.append_assoc, List.singleton_append]
    · simp only [List.length_cons]
      omega

/-- C8, amended: for every index reachable through `add_document` whose
URLs contain no tab and whose URLs and titles contain no newline,
`load_index` after `save_index` reproduces the builder's inverted index
(postings as integers), URLs, titles and document lengths exactly.  The
unconditional claim is refuted by `save_load_cex`: a tab inside a URL
shifts the tab-separated `documents.txt` fields, so the loaded URL and
title differ from the saved ones. -/
theorem save_load_roundtrip (b : Builder) (hb : Built b)
    (hurl : ∀ u ∈ b.urls, tabc ∉ u ∧ nlc ∉ u)
    (htitle : ∀ t ∈ b.titles, nlc ∉ t) :
    (load_index (save_index b)).inv =
        b.inv.map (fun e => (e.1, e.2.map (fun p => (Int.ofNat p.1, Int.ofNat p.2)))) ∧
      (load_index (save_index b)).urls = b.urls ∧
      (load_index (save_index b)).titles = b.titles ∧
      (load_index (save_index b)).lens = b.lens.map Int.ofNat := by
  obtain ⟨hwf, hnd, hT, hL⟩ := built_wf hb
  have hD : (save_index b).docs.foldl loadDocStep ([], [], []) =
      (b.urls, b.titles, List.replicate b.urls.length 0) := by
    rw [show (save_index b).docs = (List.range b.urls.length).map
      (fun i => natToDigits i ++ tabc :: b.urls.getD i [] ++ tabc :: b.titles.getD i [])
      from rfl]
    rw [loadDocs_upto b.urls b.titles (fun u hu => (hurl u hu).1) hT
      b.urls.length (le_refl _)]
    rw [List.take_length]
    rw [show b.titles.take b.urls.length = b.titles from by
      rw [← hT]; exact List.take_length b.titles]
  have hV : (save_index b).vocab.foldl loadVocabStep ([], (save_index b).bin) =
      (b.inv.map (fun e => (e.1, e.2.map (fun p => (Int.ofNat p.1, Int.ofNat p.2)))),
        ([] : List Int)) := by
    rw [show (save_index b).vocab = (b.inv.enumFrom 0).map
      (fun e => natToDigits e.1 ++ ' ' :: e.2.1 ++ ' ' :: natToDigits e.2.2.length)
      from rfl]
    rw [show (b.inv.enumFrom 0).map
        (fun e => natToDigits e.1 ++ ' ' :: e.2.1 ++ ' ' :: natToDigits e.2.2.length) =
      (b.inv.enumFrom 0).map
        (fun e => natToDigits e.1 ++ ' ' :: (e.2.1 ++ ' ' :: natToDigits e.2.2.length))
      from by simp only [List.append_assoc, List.cons_append]]
    rw [show (save_index b).bin = (b.inv.map
      (fun e => Int.ofNat e.2.length ::
        (e.2.map (fun p => [Int.ofNat p.1, Int.ofNat p.2])).flatten)).flatten from rfl]
    rw [show ((b.inv.map
        (fun e => Int.ofNat e.2.length ::
          (e.2.map (fun p => [Int.ofNat p.1, Int.ofNat p.2])).flatten)).flatten) =
      ((b.inv.map
        (fun e => Int.ofNat e.2.length ::
          (e.2.map (fun p => [Int.ofNat p.1, Int.ofNat p.2])).flatten)).flatten ++
        ([] : List Int)) from (List.append_nil _).symm]
    rw [loadVocab_fold b.inv 0 [] [] hwf (by intro e _; simp [keysOf]) hnd]
    simp
  refine ⟨?_, ?_, ?_, ?_⟩
  · show ((save_index b).vocab.foldl loadVocabStep ([], (save_index b).bin)).1 = _
    rw [hV]
  · show ((save_index b).docs.foldl loadDocStep ([], [], [])).1 = _
    rw [hD]
  · show ((save_index b).docs.foldl loadDocStep ([], [], [])).2.1 = _
    rw [hD]
  · show ((save_index b).lens.foldl
      (fun (acc : List Int × Nat) v => ((padTo acc.1 acc.2 0).set acc.2 v, acc.2 + 1))
      (((save_index b).docs.foldl loadDocStep ([], [], [])).2.2, 0)).1 = _
    rw [hD]
    rw [show (save_index b).lens = b.lens.map Int.ofNat from rfl]
    rw [loadLens_fold (b.lens.map Int.ofNat) (List.replicate b.urls.length 0) 0
      (by simp [hL])]
    simp

/-- The tab-in-URL builder of the C8 counterexample. -/
def bTab : Builder :=
  add_document emptyBuilder 0 ('a' :: tabc :: ['b']) [] []

/-- Counterexample to C8 as stated: a URL containing a tab does not
survive the save/load round trip (the loader reads the URL field up to
the first tab). -/
theorem save_load_cex :
    (load_index (save_index bTab)).urls ≠ bTab.urls := by
  have h0 : natToDigits 0 = ['0'] := by
    rw [natToDigits]
    norm_num
  have hdocs : (save_index bTab).docs =
      [['0'] ++ tabc :: bTab.urls.getD 0 [] ++ tabc :: bTab.titles.getD 0 []] := by
    rw [show (save_index bTab).docs = (List.range bTab.urls.length).map
      (fun i => natToDigits i ++ tabc :: bTab.urls.getD i [] ++ tabc :: bTab.titles.getD i [])
      from rfl]
    rw [show bTab.urls.length = 1 from rfl]
    rw [show List.range 1 = [0] from rfl]
    rw [List.map_cons, List.map_nil, h0]
  rw [show (load_index (save_index bTab)).urls =
    ((save_index bTab).docs.foldl loadDocStep ([], [], [])).1 from rfl]
  rw [hdocs]
  decide

/-- The two-document build of the C8 witness. -/
def bW : Builder :=
  add_document (add_document emptyBuilder 0 ("u0".toList) ("t0".toList)
    ("hello world".toList)) 1 ("u1".toList) ("t1".toList) ("hello there".toList)

lemma built_bW : Built bW :=
  Built.add _ _ _ _ _ (Built.add _ _ _ _ _ Built.empty)

/-- Witness for `save_load_roundtrip` on a two-document build. -/
theorem save_load_roundtrip_witness :
    Built bW ∧ (∀ u ∈ bW.urls, tabc ∉ u ∧ nlc ∉ u) ∧ (∀ t ∈ bW.titles, nlc ∉ t) ∧
      ((load_index (save_index bW)).inv =
          bW.inv.map (fun e => (e.1, e.2.map (fun p => (Int.ofNat p.1, Int.ofNat p.2)))) ∧
        (load_index (save_index bW)).urls = bW.urls ∧
        (load_index (save_index bW)).titles = bW.titles ∧
        (load_index (save_index bW)).lens = bW.lens.map Int.ofNat) :=
  ⟨built_bW, by decide, by decide,
    save_load_roundtrip bW built_bW (by decide) (by decide)⟩

/-! ## C9: `IndexBuilder::build_from_jsonl` (src/unnamed/part_003) -/

/-- Carriage return (the `\r` escape of `extract_json_field`). -/
def crc : Char := Char.ofNat 13

/-- The backslash character. -/
def bsc : Char := Char.ofNat 92

/-- `std::string::find(needle, start)`: the smallest position at or after
`start` where `needle` occurs, `none` for `npos`. -/
def findFrom (hay needle : List Char) (start : Nat) : Option Nat :=
  ((List.range (hay.length + 1)).filter
    (fun i => decide (start ≤ i) && isPre needle (hay.drop i))).head?

/-- The whitespace-skipping loop of `extract_json_field`:
`while (value_start < length && (json[value_start]==' '||=='\t')) value_start++`. -/
def skipWs (json : List Char) (i : Nat) : Nat :=
  i + ((json.drop i).takeWhile (fun c => c = ' ' || c = tabc)).length

/-- The quoted-value loop of `extract_json_field`: copy until an unescaped
quote, translating `\n`, `\t`, `\r` and passing other escaped characters
through.  A trailing lone backslash is copied verbatim (the source's
`i + 1 < length` guard fails and the character is neither a quote nor
appended via the escape path). -/
def unesc : List Char → List Char
  | [] => []
  | [c] => if c = '"' then [] else [c]
  | c :: d :: rest =>
    if c = bsc then
      (if d = 'n' then nlc else if d = 't' then tabc else if d = 'r' then crc else d) ::
        unesc rest
    else if c = '"' then []
    else c :: unesc (d :: rest)

/-- `IndexBuilder::extract_json_field`. -/
def extract_json_field (json field : List Char) (start_pos : Nat) : List Char :=
  match findFrom json ('"' :: (field ++ ['"', ':'])) start_pos with
  | none => []
  | some field_pos =>
    match findFrom json [':'] field_pos with
    | none => []
    | some colon_pos =>
      let value_start := skipWs json (colon_pos + 1)
      if json.getD value_start nulc ≠ '"' then
        let value_end :=
          match findFrom json [','] value_start with
          | some e => e
          | none =>
            match findFrom json ['\x7d'] value_start with
            | some e => e
            | none => json.length
        (json.drop value_start).take (value_end - value_start)
      else
        unesc (json.drop (value_start + 1))

/-- `std::stoi`: optional sign and leading decimal digits; `none` models
the `std::invalid_argument` throw when no digits can be parsed. -/
def stoi (s : List Char) : Option Int :=
  let s1 := s.dropWhile (fun c => isSpc c)
  let neg := s1.head? = some '-'
  let s2 := if s1.head? = some '-' ∨ s1.head? = some '+' then s1.tail else s1
  let ds := s2.takeWhile (fun c => c.isDigit)
  if ds = [] then none
  else
    let v : Int := Int.ofNat (digitsToNat ds)
    some (if neg then -v else v)

/-- One iteration of the `build_from_jsonl` line loop.  `.error line`
marks a line on which the C++ build does not continue: `std::stoi` throws
`std::invalid_argument` on a non-numeric `doc_id` (uncaught, so the
process aborts), and a negative `doc_id` makes the `size_t` padding
comparison in `add_document` loop without terminating. -/
def jsonlStep (b : Builder) (line : List Char) : Except (List Char) Builder :=
  if line = [] ∨ line.length < 50 then .ok b
  else
    let doc_id_str := extract_json_field line ("doc_id".toList) 0
    if doc_id_str = [] then .ok b
    else
      match stoi doc_id_str with
      | none => .error line
      | some doc_id =>
        if doc_id < 0 then .error line
        else
          let url := extract_json_field line ("url".toList) 0
          let title := extract_json_field line ("title".toList) 0
          let text := extract_json_field line ("text".toList) 0
          if text = [] ∨ text.length < 50 then .ok b
          else .ok (add_document b doc_id.toNat url title text)

/-- `IndexBuilder::build_from_jsonl` over the input lines: fold the line
loop, stopping at the first line on which the C++ build aborts. -/
def build_from_jsonl : List (List Char) → Builder → Except (List Char) Builder
  | [], b => .ok b
  | l :: ls, b =>
    match jsonlStep b l with
    | .ok b2 => build_from_jsonl ls b2
    | .error e => .error e

/-- A syntactically well-formed record whose `doc_id` value is a
non-numeric string; its `text` is over 50 bytes, so the claim predicts a
normal `add_document` call. -/
def jsonBadLine : List Char :=
  ("\x7b\"doc_id\": \"abc\", \"url\": \"u\", \"title\": \"t\", \"text\": \"a sufficiently long text body for the fifty byte check\"\x7d").toList

/-- C9 is false of the code: on a long-enough record whose `doc_id` field
holds a non-numeric string, `build_from_jsonl` does not skip the line and
continue — `std::stoi` throws `std::invalid_argument`, which nothing
catches, so the build aborts (modelled by the `.error` outcome). -/
theorem build_jsonl_aborts :
    50 ≤ jsonBadLine.length ∧
      extract_json_field jsonBadLine ("doc_id".toList) 0 ≠ [] ∧
      50 ≤ (extract_json_field jsonBadLine ("text".toList) 0).length ∧
      build_from_jsonl [jsonBadLine] emptyBuilder = Except.error jsonBadLine := by
  exact ⟨by decide, by decide, by decide, rfl⟩

end SE
